import Mathlib

/-!
# Marvell Octeon EP VF transmit path: descriptor formats and ring

Shallow embedding of `drivers/net/ethernet/marvell/octeon_ep_vf/octep_vf_tx.h`.

The header declares the hardware-visible records of the transmit path (the
64-byte instruction descriptor, its bit-packed instruction header, the
transmit metadata block and the scatter-gather record), the sizing macros of
the scatter-gather area and the offload flag masks.

Conventions of the embedding:

* machine integers are natural numbers; a store into a field of `w` bits
  keeps the value modulo `2 ^ w`;
* memory is a list of bytes (natural numbers below 256), lowest address first;
* object layout follows the little-endian LP64 C ABI the driver is built for:
  scalars are naturally aligned, struct members are placed in declaration
  order at the next multiple of their alignment, and bit-fields of one storage
  unit are allocated from the least-significant bit upward in declaration
  order.
-/

namespace OctepVf

/-! ## Bytes and little-endian words -/

/-- The `k` little-endian bytes of the value `x` (lowest byte first). -/
def le_bytes : Nat → Nat → List Nat
  | 0, _ => []
  | k + 1, x => x % 256 :: le_bytes k (x / 256)

/-- The value of a little-endian byte string. -/
def le_value : List Nat → Nat
  | [] => 0
  | b :: bs => b + 256 * le_value bs

/-- The `n` bytes of `bs` that start at byte offset `off`. -/
def chunk (off n : Nat) (bs : List Nat) : List Nat := (bs.drop off).take n

/-- A byte string is well formed when each element is a byte. -/
def is_bytes (bs : List Nat) : Prop := ∀ b ∈ bs, b < 256

instance (bs : List Nat) : Decidable (is_bytes bs) := by
  unfold is_bytes; infer_instance

/-- Bits `lo .. lo + width - 1` of the word `w`, as a number. -/
def getBits (w lo width : Nat) : Nat := (w / 2 ^ lo) % 2 ^ width

/-! ## C object layout -/

/-- A member of a C aggregate: its name, size and alignment in bytes. -/
structure Member where
  name : String
  size : Nat
  align : Nat
deriving DecidableEq, Repr

/-- Round `off` up to the next multiple of `a`. -/
def alignUp (off a : Nat) : Nat := (off + a - 1) / a * a

/-- Alignment of an aggregate: the largest member alignment. -/
def aggrAlign (ms : List Member) : Nat := ms.foldl (fun a m => max a m.align) 1

/-- Offsets of struct members laid out from byte `off` in declaration order,
each at the next multiple of its alignment. -/
def structOffsetsFrom : Nat → List Member → List Nat
  | _, [] => []
  | off, m :: ms => alignUp off m.align :: structOffsetsFrom (alignUp off m.align + m.size) ms

/-- First byte after the last struct member, before tail padding. -/
def structEndFrom : Nat → List Member → Nat
  | off, [] => off
  | off, m :: ms => structEndFrom (alignUp off m.align + m.size) ms

/-- Member offsets of a struct. -/
def structOffsets (ms : List Member) : List Nat := structOffsetsFrom 0 ms

/-- Value of `sizeof` for a struct: the end of the last member rounded up to the
alignment of the struct. -/
def structSize (ms : List Member) : Nat := alignUp (structEndFrom 0 ms) (aggrAlign ms)

/-- Value of `sizeof` for a union: the largest member rounded up to the
alignment of the union. -/
def unionSize (ms : List Member) : Nat :=
  alignUp (ms.foldl (fun a m => max a m.size) 0) (aggrAlign ms)

/-- An integer scalar of `n` bytes: naturally aligned. -/
def scalar (name : String) (n : Nat) : Member := ⟨name, n, n⟩

/-- An array member of `n` elements. -/
def arrayOf (name : String) (elem : Member) (n : Nat) : Member :=
  ⟨name, n * elem.size, elem.align⟩

/-- Byte offset of element `i` of an array member placed at offset `base`. -/
def elemOffset (base : Nat) (elem : Member) (i : Nat) : Nat := base + i * elem.size

/-- A bit-field declaration `u64 name : width`. -/
structure BitField where
  name : String
  width : Nat
deriving DecidableEq, Repr

/-- Bit ranges `(name, lowest bit, highest bit)` of consecutive bit-fields
allocated from bit `lo` upward in declaration order. -/
def bitRangesFrom : Nat → List BitField → List (String × Nat × Nat)
  | _, [] => []
  | lo, f :: fs => (f.name, lo, lo + f.width - 1) :: bitRangesFrom (lo + f.width) fs

/-- Bit ranges of the bit-fields of one storage unit. -/
def bitRanges (fs : List BitField) : List (String × Nat × Nat) := bitRangesFrom 0 fs

/-- Total number of bits declared. -/
def bitsUsed (fs : List BitField) : Nat := (fs.map BitField.width).sum

/-- The storage unit holding the given bit-field values: each value is stored
modulo the width of its field, the fields allocated from bit `lo` upward in
declaration order. -/
def packFrom : Nat → List (BitField × Nat) → Nat
  | _, [] => 0
  | lo, (f, v) :: r => (v % 2 ^ f.width) * 2 ^ lo + packFrom (lo + f.width) r

/-- The values of the bit-fields read out of the storage unit `w`, the fields
allocated from bit `lo` upward in declaration order. -/
def unpackFrom : Nat → List BitField → Nat → List Nat
  | _, [], _ => []
  | lo, f :: fs, w => getBits w lo f.width :: unpackFrom (lo + f.width) fs w

/-- Size in bytes of a struct made only of bit-fields of a `unitBytes`-byte
type: as many storage units as the declared bits need. -/
def bitfieldStructSize (unitBytes : Nat) (fs : List BitField) : Nat :=
  (bitsUsed fs + 8 * unitBytes - 1) / (8 * unitBytes) * unitBytes

/-! ## Hardware Tx instruction header -/

/-- Bit-field declarations of `struct octep_vf_instr_hdr`, in source order. -/
def octep_vf_instr_hdr_fields : List BitField :=
  [⟨"tlen", 16⟩, ⟨"rsvd", 20⟩, ⟨"pkind", 6⟩, ⟨"fsz", 6⟩, ⟨"gsz", 14⟩,
   ⟨"gather", 1⟩, ⟨"reserved3", 1⟩]

/-- Hardware Tx instruction header (`struct octep_vf_instr_hdr`). -/
structure octep_vf_instr_hdr where
  tlen : Nat
  rsvd : Nat
  pkind : Nat
  fsz : Nat
  gsz : Nat
  gather : Nat
  reserved3 : Nat
deriving DecidableEq, Repr

/-- Every field of the header is within its declared width. -/
def octep_vf_instr_hdr.valid (h : octep_vf_instr_hdr) : Prop :=
  h.tlen < 2 ^ 16 ∧ h.rsvd < 2 ^ 20 ∧ h.pkind < 2 ^ 6 ∧ h.fsz < 2 ^ 6 ∧
  h.gsz < 2 ^ 14 ∧ h.gather < 2 ∧ h.reserved3 < 2

instance (h : octep_vf_instr_hdr) : Decidable h.valid := by
  unfold octep_vf_instr_hdr.valid; infer_instance

/-- The field values of a header in declaration order. -/
def octep_vf_instr_hdr.values (h : octep_vf_instr_hdr) : List Nat :=
  [h.tlen, h.rsvd, h.pkind, h.fsz, h.gsz, h.gather, h.reserved3]

/-- The `ih64` view of the header union: the 64-bit storage unit holding the
bit-fields, each stored modulo its width at its bit offset. -/
def octep_vf_instr_hdr.ih64 (h : octep_vf_instr_hdr) : Nat :=
  packFrom 0 (octep_vf_instr_hdr_fields.zip h.values)

/-- The `ih` view of a 64-bit word: the bit-fields read out of it. -/
def octep_vf_instr_hdr.of_ih64 (w : Nat) : octep_vf_instr_hdr :=
  match unpackFrom 0 octep_vf_instr_hdr_fields w with
  | [tlen, rsvd, pkind, fsz, gsz, gather, reserved3] =>
    ⟨tlen, rsvd, pkind, fsz, gsz, gather, reserved3⟩
  | _ => ⟨0, 0, 0, 0, 0, 0, 0⟩

/-- One of the 64 bit positions lies in the range `r`. -/
def inRange (b : Nat) (r : String × Nat × Nat) : Prop := r.2.1 ≤ b ∧ b ≤ r.2.2

instance (b : Nat) (r : String × Nat × Nat) : Decidable (inRange b r) := by
  unfold inRange; infer_instance

/-- Two bit ranges have no bit in common. -/
def rangesDisjoint (r s : String × Nat × Nat) : Prop := r.2.2 < s.2.1 ∨ s.2.2 < r.2.1

instance (r s : String × Nat × Nat) : Decidable (rangesDisjoint r s) := by
  unfold rangesDisjoint; infer_instance

/-! ## Transmit metadata -/

/-- Members of `struct tx_mdata`, in source order. -/
def tx_mdata_members : List Member :=
  [scalar "ol_flags" 2, scalar "gso_size" 2, scalar "gso_segs" 2, scalar "rsvd1" 2,
   scalar "rsvd2" 8]

/-- Transmit metadata block (`struct tx_mdata`). -/
structure tx_mdata where
  ol_flags : Nat
  gso_size : Nat
  gso_segs : Nat
  rsvd1 : Nat
  rsvd2 : Nat
deriving DecidableEq, Repr

/-- Every field of the metadata block is within the width of its type. -/
def tx_mdata.valid (m : tx_mdata) : Prop :=
  m.ol_flags < 2 ^ 16 ∧ m.gso_size < 2 ^ 16 ∧ m.gso_segs < 2 ^ 16 ∧ m.rsvd1 < 2 ^ 16 ∧
  m.rsvd2 < 2 ^ 64

instance (m : tx_mdata) : Decidable m.valid := by
  unfold tx_mdata.valid; infer_instance

/-- Memory image of a metadata block: the members at their offsets. -/
def tx_mdata.encode (m : tx_mdata) : List Nat :=
  le_bytes 2 m.ol_flags ++ le_bytes 2 m.gso_size ++ le_bytes 2 m.gso_segs ++
  le_bytes 2 m.rsvd1 ++ le_bytes 8 m.rsvd2

/-- The metadata block read from a memory image. -/
def tx_mdata.decode (bs : List Nat) : tx_mdata where
  ol_flags := le_value (chunk 0 2 bs)
  gso_size := le_value (chunk 2 2 bs)
  gso_segs := le_value (chunk 4 2 bs)
  rsvd1 := le_value (chunk 6 2 bs)
  rsvd2 := le_value (chunk 8 8 bs)

/-- The `txm64[i]` view of the metadata union: the `i`-th 64-bit word of the
memory image of the block. -/
def tx_mdata.txm64 (m : tx_mdata) (i : Nat) : Nat := le_value (chunk (8 * i) 8 m.encode)

/-! ## 64-byte Tx instruction -/

/-- Members of the anonymous union of `ih` and `ih64`. -/
def ih_union_members : List Member :=
  [⟨"ih", bitfieldStructSize 8 octep_vf_instr_hdr_fields, 8⟩, scalar "ih64" 8]

/-- Members of the anonymous union of `txm64[2]` and `txm`. -/
def txm_union_members : List Member :=
  [arrayOf "txm64" (scalar "u64" 8) 2,
   ⟨"txm", structSize tx_mdata_members, aggrAlign tx_mdata_members⟩]

/-- Members of `struct octep_vf_tx_desc_hw`, in source order. -/
def octep_vf_tx_desc_hw_members : List Member :=
  [scalar "dptr" 8,
   ⟨"ih", unionSize ih_union_members, aggrAlign ih_union_members⟩,
   ⟨"txm", unionSize txm_union_members, aggrAlign txm_union_members⟩,
   arrayOf "exhdr" (scalar "u64" 8) 4]

/-- The 64-byte Tx instruction (`struct octep_vf_tx_desc_hw`). -/
structure octep_vf_tx_desc_hw where
  dptr : Nat
  ih : octep_vf_instr_hdr
  txm : tx_mdata
  exhdr : Fin 4 → Nat

/-- Every field of the instruction is within its width. -/
def octep_vf_tx_desc_hw.valid (d : octep_vf_tx_desc_hw) : Prop :=
  d.dptr < 2 ^ 64 ∧ d.ih.valid ∧ d.txm.valid ∧ ∀ i, d.exhdr i < 2 ^ 64

instance (d : octep_vf_tx_desc_hw) : Decidable d.valid := by
  unfold octep_vf_tx_desc_hw.valid; infer_instance

/-- Memory image of an instruction: the members at their offsets, every
scalar little-endian. -/
def octep_vf_tx_desc_hw.encode (d : octep_vf_tx_desc_hw) : List Nat :=
  le_bytes 8 d.dptr ++ le_bytes 8 d.ih.ih64 ++ d.txm.encode ++
  (le_bytes 8 (d.exhdr 0) ++ le_bytes 8 (d.exhdr 1) ++ le_bytes 8 (d.exhdr 2) ++
   le_bytes 8 (d.exhdr 3))

/-- The instruction read from a memory image. -/
def octep_vf_tx_desc_hw.decode (bs : List Nat) : octep_vf_tx_desc_hw where
  dptr := le_value (chunk 0 8 bs)
  ih := octep_vf_instr_hdr.of_ih64 (le_value (chunk 8 8 bs))
  txm := tx_mdata.decode (chunk 16 16 bs)
  exhdr := fun i => le_value (chunk (32 + 8 * i.val) 8 bs)

/-! ## Scatter/Gather list -/

/-- Modelled from the spec: the typedef `dma_addr_t` is not part of this
header; the scatter-gather record holds four 64-bit DMA addresses, and the
header asserts `sizeof(struct octep_vf_tx_sglist_desc) == 40`, which only an
8-byte `dma_addr_t` satisfies. -/
def dma_addr_t : Member := scalar "dma_addr_t" 8

/-- Members of `struct octep_vf_tx_sglist_desc`, in source order. -/
def octep_vf_tx_sglist_desc_members : List Member :=
  [arrayOf "len" (scalar "u16" 2) 4, arrayOf "dma_ptr" dma_addr_t 4]

/-- One Scatter/Gather entry (`struct octep_vf_tx_sglist_desc`). -/
structure octep_vf_tx_sglist_desc where
  len : Fin 4 → Nat
  dma_ptr : Fin 4 → Nat

/-- Every length is 16 bits and every address 64 bits. -/
def octep_vf_tx_sglist_desc.valid (s : octep_vf_tx_sglist_desc) : Prop :=
  (∀ i, s.len i < 2 ^ 16) ∧ ∀ i, s.dma_ptr i < 2 ^ 64

instance (s : octep_vf_tx_sglist_desc) : Decidable s.valid := by
  unfold octep_vf_tx_sglist_desc.valid; infer_instance

/-- Memory image of a Scatter/Gather entry. -/
def octep_vf_tx_sglist_desc.encode (s : octep_vf_tx_sglist_desc) : List Nat :=
  (le_bytes 2 (s.len 0) ++ le_bytes 2 (s.len 1) ++ le_bytes 2 (s.len 2) ++
   le_bytes 2 (s.len 3)) ++
  (le_bytes 8 (s.dma_ptr 0) ++ le_bytes 8 (s.dma_ptr 1) ++ le_bytes 8 (s.dma_ptr 2) ++
   le_bytes 8 (s.dma_ptr 3))

/-- The Scatter/Gather entry read from a memory image. -/
def octep_vf_tx_sglist_desc.decode (bs : List Nat) : octep_vf_tx_sglist_desc where
  len := fun i => le_value (chunk (2 * i.val) 2 bs)
  dma_ptr := fun i => le_value (chunk (8 + 8 * i.val) 8 bs)

/-- The `i`-th 64-bit little-endian word of the memory image of an entry, the
unit in which the hardware format is drawn. -/
def octep_vf_tx_sglist_desc.word (s : octep_vf_tx_sglist_desc) (i : Nat) : Nat :=
  le_value (chunk (8 * i) 8 s.encode)

/-! ## Scatter/Gather area sizing -/

/-- A store into an `int`: the value wraps to 32 bits, two's complement, as
signed arithmetic does in a kernel build. -/
def s32 (x : Int) : Int := (x + 2 ^ 31) % 2 ^ 32 - 2 ^ 31

/-- Conversion of an `int` to the 64-bit `size_t`: the value modulo 2^64. -/
def to_size_t (x : Int) : Nat := (x % 2 ^ 64).toNat

/-- The macro `OCTEP_VF_SGLIST_ENTRIES_PER_PKT`: `int` arithmetic, every sum
wrapping to 32 bits and the division truncating toward zero. The kernel
constant `MAX_SKB_FRAGS`, an `int` which this header does not define, is a
parameter. -/
def OCTEP_VF_SGLIST_ENTRIES_PER_PKT (MAX_SKB_FRAGS : Nat) : Int :=
  Int.tdiv (s32 (s32 (s32 (MAX_SKB_FRAGS : Int) + 1) + 3)) 4

/-- The macro `OCTEP_VF_SGLIST_SIZE_PER_PKT`: the `int` count is converted to
`size_t` and multiplied by the `sizeof` of the record modulo 2^64. -/
def OCTEP_VF_SGLIST_SIZE_PER_PKT (MAX_SKB_FRAGS : Nat) : Nat :=
  (to_size_t (OCTEP_VF_SGLIST_ENTRIES_PER_PKT MAX_SKB_FRAGS) *
    structSize octep_vf_tx_sglist_desc_members) % 2 ^ 64

/-- Ceiling of `a / b` as the specification writes it: the quotient, plus one
when the division leaves a remainder. -/
def ceil_div (a b : Nat) : Nat := if a % b = 0 then a / b else a / b + 1

/-- Number of four-pointer records the specification requires for a packet
with `k` fragments beyond its head buffer: `ceil((k + 1) / 4)`. -/
def gather_records_needed (k : Nat) : Nat := ceil_div (k + 1) 4

/-! ## Tx offload flags -/

/-- Modelled from the spec: the kernel macro `BIT(nr)` comes from the kernel's
bit helpers, not from this header; flag number `nr` is the mask with only bit
`nr` set. -/
def BIT (nr : Nat) : Nat := 1 <<< nr

/-- Tx offload flag: VLAN insert. -/
def OCTEP_VF_TX_OFFLOAD_VLAN_INSERT : Nat := BIT 0

/-- Tx offload flag: IPv4 checksum. -/
def OCTEP_VF_TX_OFFLOAD_IPV4_CKSUM : Nat := BIT 1

/-- Tx offload flag: UDP checksum. -/
def OCTEP_VF_TX_OFFLOAD_UDP_CKSUM : Nat := BIT 2

/-- Tx offload flag: TCP checksum. -/
def OCTEP_VF_TX_OFFLOAD_TCP_CKSUM : Nat := BIT 3

/-- Tx offload flag: SCTP checksum. -/
def OCTEP_VF_TX_OFFLOAD_SCTP_CKSUM : Nat := BIT 4

/-- Tx offload flag: TCP segmentation. -/
def OCTEP_VF_TX_OFFLOAD_TCP_TSO : Nat := BIT 5

/-- Tx offload flag: UDP segmentation. -/
def OCTEP_VF_TX_OFFLOAD_UDP_TSO : Nat := BIT 6

/-- The seven offload flags in the order the header defines them. -/
def tx_offload_flags : List Nat :=
  [OCTEP_VF_TX_OFFLOAD_VLAN_INSERT, OCTEP_VF_TX_OFFLOAD_IPV4_CKSUM,
   OCTEP_VF_TX_OFFLOAD_UDP_CKSUM, OCTEP_VF_TX_OFFLOAD_TCP_CKSUM,
   OCTEP_VF_TX_OFFLOAD_SCTP_CKSUM, OCTEP_VF_TX_OFFLOAD_TCP_TSO,
   OCTEP_VF_TX_OFFLOAD_UDP_TSO]

/-- Bitwise OR of a list of flags. -/
def or_flags (fs : List Nat) : Nat := fs.foldl (fun a f => a ||| f) 0

/-! ## The instruction (input) queue -/

/-- A store into a `u16` field. -/
def u16 (x : Nat) : Nat := x % 2 ^ 16

/-- A store into a `u32` field. -/
def u32 (x : Nat) : Nat := x % 2 ^ 32

/-- A store into a `u64` field. -/
def u64 (x : Nat) : Nat := x % 2 ^ 64

/-- VF Input Queue statistics (`struct octep_vf_iq_stats`), all `u64`. -/
structure octep_vf_iq_stats where
  instr_posted : Nat
  instr_completed : Nat
  instr_dropped : Nat
  bytes_sent : Nat
  sgentry_sent : Nat
  tx_busy : Nat
  restart_cnt : Nat
deriving DecidableEq, Repr

/-- The instruction (input) queue (`struct octep_vf_iq`): the three `u16` ring
indices, the statistics, the `u32` capacity and mask and the `u32` doorbell
batching fields. The pointers to the device, the rings and the registers are
not part of the state tracked here. -/
structure octep_vf_iq where
  host_write_index : Nat
  octep_vf_read_index : Nat
  flush_index : Nat
  stats : octep_vf_iq_stats
  max_count : Nat
  ring_size_mask : Nat
  fill_cnt : Nat
  fill_threshold : Nat
deriving DecidableEq, Repr

/-- Modelled from the spec: the result of a transmit call, `Accepted`,
`QueueFull` or `Error`; the transmit function is not part of this header. -/
inductive TxResult where
  | Accepted
  | QueueFull
  | Error
deriving DecidableEq, Repr

/-- Number of slots from index `a` forward to index `b` in a ring of `n`
slots. -/
def ring_dist_n (n a b : Nat) : Nat := (b + n - a) % n

/-- Number of slots from index `a` forward to index `b` in ring order. -/
def ring_dist (q : octep_vf_iq) (a b : Nat) : Nat := ring_dist_n q.max_count a b

/-- Number of slots between `flush_index` and `host_write_index`. -/
def in_flight (q : octep_vf_iq) : Nat := ring_dist q q.flush_index q.host_write_index

/-- The state `FULL` of the ring: in-flight equals capacity minus one. -/
def iq_full (q : octep_vf_iq) : Prop := in_flight q = q.max_count - 1

instance (q : octep_vf_iq) : Decidable (iq_full q) := by
  unfold iq_full; infer_instance

/-- Descriptors posted and not yet reclaimed, from the `u64` statistics. -/
def pending_instr (q : octep_vf_iq) : Nat :=
  (q.stats.instr_posted + 2 ^ 64 - q.stats.instr_completed) % 2 ^ 64

/-- Modelled from the spec: queue creation, `create_queue(capacity, ..)`, is not
part of this header; a freshly initialised queue has all indices and counters
zero, the capacity in `max_count` and the wrap mask `max_count - 1`. -/
def iq_init (capacity fill_threshold : Nat) : octep_vf_iq where
  host_write_index := 0
  octep_vf_read_index := 0
  flush_index := 0
  stats := ⟨0, 0, 0, 0, 0, 0, 0⟩
  max_count := u32 capacity
  ring_size_mask := u32 (u32 capacity + 2 ^ 32 - 1)
  fill_cnt := 0
  fill_threshold := u32 fill_threshold

/-- Modelled from the spec: posting one descriptor; the transmit function is not
part of this header. In `FULL` the packet is refused with `QueueFull` and the
dropped and busy counters are incremented; otherwise the descriptor is written
at `host_write_index`, the index advances with the wrap mask, and `fill_cnt`
and the posted counter are incremented. -/
def iq_post (q : octep_vf_iq) : TxResult × octep_vf_iq :=
  if iq_full q then
    (TxResult.QueueFull,
      { q with stats := { q.stats with instr_dropped := u64 (q.stats.instr_dropped + 1),
                                       tx_busy := u64 (q.stats.tx_busy + 1) } })
  else
    (TxResult.Accepted,
      { q with host_write_index := u16 ((q.host_write_index + 1) &&& q.ring_size_mask),
               fill_cnt := u32 (q.fill_cnt + 1),
               stats := { q.stats with instr_posted := u64 (q.stats.instr_posted + 1) } })

/-- Modelled from the spec: ringing the doorbell, which is not part of this
header; when `fill_cnt` has reached `fill_threshold` the doorbell is written
with `fill_cnt`, which is reset to 0. -/
def iq_announce (q : octep_vf_iq) : octep_vf_iq :=
  if q.fill_threshold ≤ q.fill_cnt then { q with fill_cnt := 0 } else q

/-- Modelled from the spec: reclaiming completed slots; the completion function
is not part of this header. `done` is the number of further descriptors the
device reports consumed. The scan never passes `host_write_index`; every
processed slot advances the read and flush indices and the completed counter;
a queue that was `FULL` and no longer is counts one restart. The result is the
completed count and whether space is available. -/
def iq_reclaim (q : octep_vf_iq) (done : Nat) : (Nat × Bool) × octep_vf_iq :=
  let n := min done (in_flight q)
  let q1 : octep_vf_iq :=
    { q with octep_vf_read_index := u16 ((q.octep_vf_read_index + n) &&& q.ring_size_mask),
             flush_index := u16 ((q.flush_index + n) &&& q.ring_size_mask),
             stats := { q.stats with instr_completed := u64 (q.stats.instr_completed + n) } }
  let q2 : octep_vf_iq :=
    if iq_full q ∧ ¬ iq_full q1 then
      { q1 with stats := { q1.stats with restart_cnt := u64 (q1.stats.restart_cnt + 1) } }
    else q1
  ((n, decide (¬ iq_full q2)), q2)

/-- The operations on a queue. -/
inductive IqOp where
  | post
  | announce
  | reclaim (done : Nat)
deriving DecidableEq, Repr

/-- One operation applied to a queue. -/
def iq_step (q : octep_vf_iq) : IqOp → octep_vf_iq
  | IqOp.post => (iq_post q).2
  | IqOp.announce => iq_announce q
  | IqOp.reclaim done => (iq_reclaim q done).2

/-- A sequence of operations applied to a queue, first to last. -/
def iq_run (q : octep_vf_iq) (ops : List IqOp) : octep_vf_iq := ops.foldl iq_step q

/-- The ring invariant: the indices lie in the ring, the read index is
between the flush index and the write index in ring order, at most capacity
minus one slots are in flight, and the in-flight window counts exactly the
descriptors posted and not yet reclaimed. -/
def ring_invariant (q : octep_vf_iq) : Prop :=
  q.flush_index < q.max_count ∧ q.octep_vf_read_index < q.max_count ∧
  q.host_write_index < q.max_count ∧
  ring_dist q q.flush_index q.octep_vf_read_index ≤
    ring_dist q q.flush_index q.host_write_index ∧
  in_flight q ≤ q.max_count - 1 ∧
  pending_instr q = in_flight q

instance (q : octep_vf_iq) : Decidable (ring_invariant q) := by
  unfold ring_invariant; infer_instance

/-- A well-formed queue of capacity `2 ^ k`: it keeps the capacity and mask, has
counters within 64 bits, equal read and flush indices, and the ring
invariant. -/
def iq_wf (k : Nat) (q : octep_vf_iq) : Prop :=
  q.max_count = 2 ^ k ∧ q.ring_size_mask = 2 ^ k - 1 ∧
  q.stats.instr_posted < 2 ^ 64 ∧ q.stats.instr_completed < 2 ^ 64 ∧
  q.octep_vf_read_index = q.flush_index ∧ ring_invariant q

/-! ## Transmit result codes and buffer types -/

/-- The macro `IQ_SEND_OK`. -/
def IQ_SEND_OK : Int := 0

/-- The macro `IQ_SEND_STOP`. -/
def IQ_SEND_STOP : Int := 1

/-- The macro `IQ_SEND_FAILED`. -/
def IQ_SEND_FAILED : Int := -1

/-- The three transmit result codes. -/
def iq_send_codes : List Int := [IQ_SEND_OK, IQ_SEND_STOP, IQ_SEND_FAILED]

/-- The value a signed two's-complement integer of `w` bits holds after `x`
is stored in it. -/
def store_signed (w : Nat) (x : Int) : Int := (x + 2 ^ (w - 1)) % 2 ^ w - 2 ^ (w - 1)

/-- The macro `TX_BUFTYPE_NONE`. -/
def TX_BUFTYPE_NONE : Nat := 0

/-- The macro `TX_BUFTYPE_NET`. -/
def TX_BUFTYPE_NET : Nat := 1

/-- The macro `TX_BUFTYPE_NET_SG`. -/
def TX_BUFTYPE_NET_SG : Nat := 2

/-- The macro `NUM_TX_BUFTYPES`. -/
def NUM_TX_BUFTYPES : Nat := 3

/-- The transmit buffer-type tags. -/
def tx_buftypes : List Nat := [TX_BUFTYPE_NONE, TX_BUFTYPE_NET, TX_BUFTYPE_NET_SG]

/-- A store into a `u8` field. -/
def u8 (x : Nat) : Nat := x % 2 ^ 8

/-- Info of one Tx buffer pending completion (`struct octep_vf_tx_buffer`);
pointers and DMA addresses are numbers, `gather` is the `u8` buffer-type
tag. -/
structure octep_vf_tx_buffer where
  skb : Nat
  dma : Nat
  sglist : Nat
  sglist_dma : Nat
  gather : Nat
deriving DecidableEq, Repr

/-- A zero-initialised pending-buffer entry. -/
def octep_vf_tx_buffer.zeroed : octep_vf_tx_buffer := ⟨0, 0, 0, 0, 0⟩

/-- Storing a buffer-type tag in the `gather` field of an entry. -/
def octep_vf_tx_buffer.set_gather (b : octep_vf_tx_buffer) (tag : Nat) : octep_vf_tx_buffer :=
  { b with gather := u8 tag }

/-! ## Writing the fields of the instruction header -/

/-- The seven fields of `struct octep_vf_instr_hdr`. -/
inductive HdrField where
  | tlen
  | rsvd
  | pkind
  | fsz
  | gsz
  | gather
  | reserved3
deriving DecidableEq, Repr

/-- Position of a field in the declaration order. -/
def HdrField.index : HdrField → Nat
  | HdrField.tlen => 0
  | HdrField.rsvd => 1
  | HdrField.pkind => 2
  | HdrField.fsz => 3
  | HdrField.gsz => 4
  | HdrField.gather => 5
  | HdrField.reserved3 => 6

/-- Lowest bit of a field in the 64-bit header word. -/
def HdrField.lo (f : HdrField) : Nat :=
  ((bitRanges octep_vf_instr_hdr_fields).getD f.index ("", 0, 0)).2.1

/-- Declared width of a field. -/
def HdrField.width (f : HdrField) : Nat :=
  (octep_vf_instr_hdr_fields.getD f.index ⟨"", 0⟩).width

/-- The word `w` with bits `lo .. lo + width - 1` replaced by `v` modulo
`2 ^ width`, as a store into a bit-field does: the bits of the field are
cleared and the truncated value is put in their place. -/
def setBits (w lo width v : Nat) : Nat :=
  w - getBits w lo width * 2 ^ lo + (v % 2 ^ width) * 2 ^ lo

/-- Reading field `f` of the header word `w`. -/
def hdr_read (f : HdrField) (w : Nat) : Nat := getBits w f.lo f.width

/-- Writing `v` to field `f` of the header word `w`. -/
def hdr_write (f : HdrField) (v w : Nat) : Nat := setBits w f.lo f.width v

/-- Assigning `v` to member `f` of the header struct. -/
def octep_vf_instr_hdr.set (h : octep_vf_instr_hdr) (f : HdrField) (v : Nat) :
    octep_vf_instr_hdr :=
  match f with
  | HdrField.tlen => { h with tlen := v }
  | HdrField.rsvd => { h with rsvd := v }
  | HdrField.pkind => { h with pkind := v }
  | HdrField.fsz => { h with fsz := v }
  | HdrField.gsz => { h with gsz := v }
  | HdrField.gather => { h with gather := v }
  | HdrField.reserved3 => { h with reserved3 := v }

/-! ## Offload masks -/

/-- The macro `OCTEP_VF_TX_OFFLOAD_CKSUM`. -/
def OCTEP_VF_TX_OFFLOAD_CKSUM : Nat :=
  OCTEP_VF_TX_OFFLOAD_IPV4_CKSUM ||| OCTEP_VF_TX_OFFLOAD_UDP_CKSUM |||
    OCTEP_VF_TX_OFFLOAD_TCP_CKSUM

/-- The macro `OCTEP_VF_TX_OFFLOAD_TSO`. -/
def OCTEP_VF_TX_OFFLOAD_TSO : Nat :=
  OCTEP_VF_TX_OFFLOAD_TCP_TSO ||| OCTEP_VF_TX_OFFLOAD_UDP_TSO

/-- The macro `OCTEP_VF_TX_IP_CSUM(flags)`. -/
def OCTEP_VF_TX_IP_CSUM (flags : Nat) : Nat :=
  flags &&& (OCTEP_VF_TX_OFFLOAD_IPV4_CKSUM ||| OCTEP_VF_TX_OFFLOAD_TCP_CKSUM |||
    OCTEP_VF_TX_OFFLOAD_UDP_CKSUM)

/-- The macro `OCTEP_VF_TX_TSO(flags)`. -/
def OCTEP_VF_TX_TSO (flags : Nat) : Nat :=
  flags &&& (OCTEP_VF_TX_OFFLOAD_TCP_TSO ||| OCTEP_VF_TX_OFFLOAD_UDP_TSO)

/-! ## Placement of the Scatter/Gather groups -/

/-- Byte address of the Scatter/Gather group of ring slot `i`, the groups laid
out back to back from `base`. -/
def sglist_group_addr (MAX_SKB_FRAGS base i : Nat) : Nat :=
  base + i * OCTEP_VF_SGLIST_SIZE_PER_PKT MAX_SKB_FRAGS

/-- Byte address of `dma_ptr[j]` of record `e` in the group of ring slot `i`. -/
def sglist_dma_ptr_addr (MAX_SKB_FRAGS base i e j : Nat) : Nat :=
  sglist_group_addr MAX_SKB_FRAGS base i +
    e * structSize octep_vf_tx_sglist_desc_members + elemOffset 8 dma_addr_t j


/-! ## Backpressure -/

/-- Modelled from the spec: the caller side of the backpressure contract, which
is not part of this header: descriptors are posted one after another until
the transmit call returns `QueueFull`. The result is the number of accepted
posts and the queue after the refused post, or nothing when all `fuel` posts
were accepted. -/
def post_until_full : Nat → octep_vf_iq → Option (Nat × octep_vf_iq)
  | 0, _ => none
  | fuel + 1, q =>
    match iq_post q with
    | (TxResult.QueueFull, q1) => some (0, q1)
    | (_, q1) => (post_until_full fuel q1).map (fun r => (r.1 + 1, r.2))

/-! ## Sample records -/

/-- An instruction with every field at the largest value of its width. -/
def desc_boundary : octep_vf_tx_desc_hw where
  dptr := 2 ^ 64 - 1
  ih := ⟨65535, 2 ^ 20 - 1, 63, 63, 16383, 1, 1⟩
  txm := ⟨65535, 65535, 65535, 65535, 2 ^ 64 - 1⟩
  exhdr := fun _ => 2 ^ 64 - 1

/-- A gathered instruction as in a transmit of five buffers: only the
mandatory fields and the offload metadata are set. -/
def desc_gather5 : octep_vf_tx_desc_hw where
  dptr := 0x12345000
  ih := ⟨1500, 0, 0, 2, 5, 1, 0⟩
  txm := ⟨0x2a, 1448, 2, 0, 0⟩
  exhdr := fun _ => 0

/-- A Scatter/Gather entry with four different lengths and addresses. -/
def sglist_sample : octep_vf_tx_sglist_desc where
  len := fun i => i.val + 1
  dma_ptr := fun i => 0x1000 * (i.val + 1)

/-- A Scatter/Gather entry with every field at its largest value. -/
def sglist_boundary : octep_vf_tx_sglist_desc where
  len := fun _ => 65535
  dma_ptr := fun _ => 2 ^ 64 - 1

/-- The queue of capacity 1 after the first post, which is refused. -/
def iq_capacity_one_refused : octep_vf_iq := (iq_post (iq_init (2 ^ 0) 1)).2

/-! ## Theorems -/

/-! ### The header word -/

theorem ih64_eq_sum (h : octep_vf_instr_hdr) :
    h.ih64 = h.tlen % 2 ^ 16 + (h.rsvd % 2 ^ 20) * 2 ^ 16 + (h.pkind % 2 ^ 6) * 2 ^ 36 +
      (h.fsz % 2 ^ 6) * 2 ^ 42 + (h.gsz % 2 ^ 14) * 2 ^ 48 + (h.gather % 2) * 2 ^ 62 +
      (h.reserved3 % 2) * 2 ^ 63 := by
  simp only [octep_vf_instr_hdr.ih64, octep_vf_instr_hdr.values, octep_vf_instr_hdr_fields,
    List.zip_cons_cons, List.zip_nil_right, packFrom]
  omega

theorem of_ih64_eq (w : Nat) :
    octep_vf_instr_hdr.of_ih64 w =
      ⟨getBits w 0 16, getBits w 16 20, getBits w 36 6, getBits w 42 6, getBits w 48 14,
        getBits w 62 1, getBits w 63 1⟩ := rfl

/-! ### Little-endian words -/

theorem le_bytes_length (k x : Nat) : (le_bytes k x).length = k := by
  induction k generalizing x with
  | zero => rfl
  | succ k ih => simp [le_bytes, ih]

theorem le_bytes_is_bytes (k x : Nat) : is_bytes (le_bytes k x) := by
  induction k generalizing x with
  | zero => intro b hb; simp [le_bytes] at hb
  | succ k ih =>
    intro b hb
    simp only [le_bytes, List.mem_cons] at hb
    rcases hb with rfl | hb
    · exact Nat.mod_lt _ (by decide)
    · exact ih _ b hb

theorem le_value_le_bytes (k x : Nat) : le_value (le_bytes k x) = x % 256 ^ k := by
  induction k generalizing x with
  | zero => simp [le_bytes, le_value, Nat.mod_one]
  | succ k ih =>
    simp only [le_bytes, le_value, ih]
    rw [pow_succ, Nat.mul_comm (256 ^ k) 256, Nat.mod_mul]

theorem le_value_lt (bs : List Nat) (h : is_bytes bs) : le_value bs < 256 ^ bs.length := by
  induction bs with
  | nil => simp [le_value]
  | cons b bs ih =>
    have hb : b < 256 := h b (List.mem_cons_self _ _)
    have := ih (fun c hc => h c (List.mem_cons_of_mem _ hc))
    simp only [le_value, List.length_cons, pow_succ]
    omega

theorem le_bytes_le_value (bs : List Nat) (h : is_bytes bs) :
    le_bytes bs.length (le_value bs) = bs := by
  induction bs with
  | nil => rfl
  | cons b bs ih =>
    have hb : b < 256 := h b (List.mem_cons_self _ _)
    have := ih (fun c hc => h c (List.mem_cons_of_mem _ hc))
    simp only [List.length_cons, le_bytes, le_value]
    have h1 : (b + 256 * le_value bs) % 256 = b := by omega
    have h2 : (b + 256 * le_value bs) / 256 = le_value bs := by omega
    rw [h1, h2, this]

theorem chunk_length (off n : Nat) (bs : List Nat) (h : off + n ≤ bs.length) :
    (chunk off n bs).length = n := by
  simp only [chunk, List.length_take, List.length_drop]
  omega

theorem chunk_is_bytes (off n : Nat) (bs : List Nat) (h : is_bytes bs) :
    is_bytes (chunk off n bs) := by
  intro b hb
  exact h b (List.mem_of_mem_drop (List.mem_of_mem_take hb))

theorem chunk_append_drop (off n : Nat) (bs : List Nat) :
    chunk off n bs ++ bs.drop (off + n) = bs.drop off := by
  have := List.take_append_drop n (bs.drop off)
  rw [List.drop_drop] at this
  simp [chunk, Nat.add_comm, this]

/-- Re-encoding the value of an `n`-byte chunk gives the chunk back. -/
theorem le_bytes_chunk (off n : Nat) (bs : List Nat) (h : is_bytes bs)
    (hl : off + n ≤ bs.length) : le_bytes n (le_value (chunk off n bs)) = chunk off n bs := by
  have := le_bytes_le_value (chunk off n bs) (chunk_is_bytes off n bs h)
  rwa [chunk_length off n bs hl] at this

/-- C1: the instruction header is made of exactly seven bit-fields allocated from
the least-significant bit upward, tlen 0..15, rsvd 16..35, pkind 36..41,
fsz 42..47, gsz 48..61, gather 62, reserved3 63; the ranges are pairwise
disjoint, cover all 64 bits, the header is 8 bytes, and the `ih64` word
carries each field at exactly that range. -/
theorem instr_hdr_bit_layout :
    octep_vf_instr_hdr_fields.length = 7 ∧
    bitRanges octep_vf_instr_hdr_fields =
      [("tlen", 0, 15), ("rsvd", 16, 35), ("pkind", 36, 41), ("fsz", 42, 47),
       ("gsz", 48, 61), ("gather", 62, 62), ("reserved3", 63, 63)] ∧
    octep_vf_instr_hdr_fields.map BitField.width = [16, 20, 6, 6, 14, 1, 1] ∧
    (bitRanges octep_vf_instr_hdr_fields).Pairwise rangesDisjoint ∧
    (∀ b, b < 64 ↔ ∃ r ∈ bitRanges octep_vf_instr_hdr_fields, inRange b r) ∧
    bitsUsed octep_vf_instr_hdr_fields = 64 ∧
    bitfieldStructSize 8 octep_vf_instr_hdr_fields = 8 ∧
    (∀ h : octep_vf_instr_hdr,
      h.ih64 < 2 ^ 64 ∧
      getBits h.ih64 0 16 = h.tlen % 2 ^ 16 ∧
      getBits h.ih64 16 20 = h.rsvd % 2 ^ 20 ∧
      getBits h.ih64 36 6 = h.pkind % 2 ^ 6 ∧
      getBits h.ih64 42 6 = h.fsz % 2 ^ 6 ∧
      getBits h.ih64 48 14 = h.gsz % 2 ^ 14 ∧
      getBits h.ih64 62 1 = h.gather % 2 ^ 1 ∧
      getBits h.ih64 63 1 = h.reserved3 % 2 ^ 1) ∧
    (∀ w : Nat,
      (octep_vf_instr_hdr.of_ih64 w).values =
        (bitRanges octep_vf_instr_hdr_fields).map
          (fun r => getBits w r.2.1 (r.2.2 + 1 - r.2.1))) := by
  refine ⟨rfl, rfl, rfl, by decide, ?_, rfl, rfl, ?_, fun _ => rfl⟩
  · intro b
    simp only [bitRanges, bitRangesFrom, octep_vf_instr_hdr_fields, inRange,
      List.mem_cons, List.mem_singleton, exists_eq_or_imp, exists_eq_left,
      List.not_mem_nil, false_and, exists_false, or_false]
    omega
  · intro h
    rw [ih64_eq_sum]
    simp only [getBits]
    omega

/-! ### Round trips of the records -/

theorem instr_hdr_of_ih64_ih64 (h : octep_vf_instr_hdr) (hv : h.valid) :
    octep_vf_instr_hdr.of_ih64 h.ih64 = h := by
  obtain ⟨tlen, rsvd, pkind, fsz, gsz, gather, reserved3⟩ := h
  simp only [octep_vf_instr_hdr.valid] at hv
  rw [of_ih64_eq, ih64_eq_sum]
  simp only [getBits, octep_vf_instr_hdr.mk.injEq]
  omega

theorem instr_hdr_ih64_of_ih64 (w : Nat) (hw : w < 2 ^ 64) :
    (octep_vf_instr_hdr.of_ih64 w).ih64 = w := by
  rw [ih64_eq_sum, of_ih64_eq]
  simp only [getBits]
  omega

theorem tx_mdata_decode_encode (m : tx_mdata) (hv : m.valid) :
    tx_mdata.decode m.encode = m := by
  obtain ⟨ol_flags, gso_size, gso_segs, rsvd1, rsvd2⟩ := m
  simp only [tx_mdata.valid] at hv
  simp only [tx_mdata.decode, tx_mdata.encode, le_bytes, chunk, List.cons_append,
    List.nil_append, List.drop_succ_cons, List.drop_zero, List.take_succ_cons, List.take_zero,
    le_value, tx_mdata.mk.injEq]
  omega

theorem tx_mdata_encode_length (m : tx_mdata) : m.encode.length = 16 := by
  simp [tx_mdata.encode, le_bytes_length]

theorem tx_desc_encode_length (d : octep_vf_tx_desc_hw) : d.encode.length = 64 := by
  simp [octep_vf_tx_desc_hw.encode, le_bytes_length, tx_mdata_encode_length]

theorem sglist_desc_encode_length (s : octep_vf_tx_sglist_desc) : s.encode.length = 40 := by
  simp [octep_vf_tx_sglist_desc.encode, le_bytes_length]

theorem tx_desc_decode_encode (d : octep_vf_tx_desc_hw) (hv : d.valid) :
    octep_vf_tx_desc_hw.decode d.encode = d := by
  obtain ⟨dptr, ih, txm, exhdr⟩ := d
  obtain ⟨hd, hih, htxm, hex⟩ := hv
  simp only at hd hih htxm hex
  have hw : ih.ih64 < 2 ^ 64 := by
    rw [ih64_eq_sum]; omega
  have e2 := tx_mdata_decode_encode txm htxm
  obtain ⟨ol_flags, gso_size, gso_segs, rsvd1, rsvd2⟩ := txm
  simp only [octep_vf_tx_desc_hw.decode, octep_vf_tx_desc_hw.encode, tx_mdata.encode,
    le_bytes, chunk, List.cons_append, List.nil_append, List.drop_succ_cons, List.drop_zero,
    List.take_succ_cons, List.take_zero, octep_vf_tx_desc_hw.mk.injEq] at e2 ⊢
  refine ⟨?_, ?_, ?_, ?_⟩
  · simp only [le_value]; omega
  · refine Eq.trans (congrArg _ ?_) (instr_hdr_of_ih64_ih64 ih hih)
    simp only [le_value]; omega
  · simpa [tx_mdata.decode, tx_mdata.encode, le_bytes, chunk] using e2
  · funext i
    have := hex i
    fin_cases i <;>
      simp only [le_value, Fin.val_zero, Fin.val_one, Fin.val_two, Fin.mk_one, Fin.zero_eta,
        Fin.reduceFinMk, Nat.mul_zero, Nat.add_zero, List.drop_succ_cons, List.drop_zero,
        List.take_succ_cons, List.take_zero] at this ⊢ <;> omega

theorem tx_mdata_encode_decode (cs : List Nat) (hl : cs.length = 16) (hb : is_bytes cs) :
    (tx_mdata.decode cs).encode = cs := by
  have h5 : chunk 8 8 cs ++ cs.drop 16 = cs.drop 8 := chunk_append_drop 8 8 cs
  have h4 : chunk 6 2 cs ++ cs.drop 8 = cs.drop 6 := chunk_append_drop 6 2 cs
  have h3 : chunk 4 2 cs ++ cs.drop 6 = cs.drop 4 := chunk_append_drop 4 2 cs
  have h2 : chunk 2 2 cs ++ cs.drop 4 = cs.drop 2 := chunk_append_drop 2 2 cs
  have h1 : chunk 0 2 cs ++ cs.drop 2 = cs.drop 0 := chunk_append_drop 0 2 cs
  rw [List.drop_of_length_le (by omega), List.append_nil] at h5
  simp only [tx_mdata.encode, tx_mdata.decode]
  rw [le_bytes_chunk 0 2 cs hb (by omega), le_bytes_chunk 2 2 cs hb (by omega),
    le_bytes_chunk 4 2 cs hb (by omega), le_bytes_chunk 6 2 cs hb (by omega),
    le_bytes_chunk 8 8 cs hb (by omega)]
  simp only [List.append_assoc]
  rw [h5, h4, h3, h2, h1, List.drop_zero]

theorem tx_desc_encode_decode (bs : List Nat) (hl : bs.length = 64) (hb : is_bytes bs) :
    (octep_vf_tx_desc_hw.decode bs).encode = bs := by
  have h7 : chunk 56 8 bs ++ bs.drop 64 = bs.drop 56 := chunk_append_drop 56 8 bs
  have h6 : chunk 48 8 bs ++ bs.drop 56 = bs.drop 48 := chunk_append_drop 48 8 bs
  have h5 : chunk 40 8 bs ++ bs.drop 48 = bs.drop 40 := chunk_append_drop 40 8 bs
  have h4 : chunk 32 8 bs ++ bs.drop 40 = bs.drop 32 := chunk_append_drop 32 8 bs
  have h3 : chunk 16 16 bs ++ bs.drop 32 = bs.drop 16 := chunk_append_drop 16 16 bs
  have h2 : chunk 8 8 bs ++ bs.drop 16 = bs.drop 8 := chunk_append_drop 8 8 bs
  have h1 : chunk 0 8 bs ++ bs.drop 8 = bs.drop 0 := chunk_append_drop 0 8 bs
  rw [List.drop_of_length_le (by omega), List.append_nil] at h7
  have hw : le_value (chunk 8 8 bs) < 2 ^ 64 := by
    have := le_value_lt (chunk 8 8 bs) (chunk_is_bytes 8 8 bs hb)
    rw [chunk_length 8 8 bs (by omega)] at this
    exact this
  have hm := tx_mdata_encode_decode (chunk 16 16 bs) (chunk_length 16 16 bs (by omega))
    (chunk_is_bytes 16 16 bs hb)
  show le_bytes 8 (le_value (chunk 0 8 bs)) ++
      le_bytes 8 (octep_vf_instr_hdr.of_ih64 (le_value (chunk 8 8 bs))).ih64 ++
      (tx_mdata.decode (chunk 16 16 bs)).encode ++
      (le_bytes 8 (le_value (chunk 32 8 bs)) ++ le_bytes 8 (le_value (chunk 40 8 bs)) ++
       le_bytes 8 (le_value (chunk 48 8 bs)) ++ le_bytes 8 (le_value (chunk 56 8 bs))) = bs
  rw [instr_hdr_ih64_of_ih64 _ hw, hm, le_bytes_chunk 0 8 bs hb (by omega),
    le_bytes_chunk 8 8 bs hb (by omega), le_bytes_chunk 32 8 bs hb (by omega),
    le_bytes_chunk 40 8 bs hb (by omega), le_bytes_chunk 48 8 bs hb (by omega),
    le_bytes_chunk 56 8 bs hb (by omega)]
  simp only [List.append_assoc]
  rw [h7, h6, h5, h4, h3, h2, h1, List.drop_zero]

theorem sglist_desc_decode_encode (s : octep_vf_tx_sglist_desc) (hv : s.valid) :
    octep_vf_tx_sglist_desc.decode s.encode = s := by
  obtain ⟨len, dma_ptr⟩ := s
  obtain ⟨hlen, hptr⟩ := hv
  simp only at hlen hptr
  simp only [octep_vf_tx_sglist_desc.decode, octep_vf_tx_sglist_desc.encode, le_bytes, chunk,
    List.cons_append, List.nil_append, octep_vf_tx_sglist_desc.mk.injEq]
  constructor
  · funext i
    have := hlen i
    fin_cases i <;>
      simp only [le_value, Fin.val_zero, Fin.val_one, Fin.val_two, Fin.mk_one, Fin.zero_eta,
        Fin.reduceFinMk, Nat.mul_zero, Nat.add_zero, List.drop_succ_cons, List.drop_zero,
        List.take_succ_cons, List.take_zero] at this ⊢ <;> omega
  · funext i
    have := hptr i
    fin_cases i <;>
      simp only [le_value, Fin.val_zero, Fin.val_one, Fin.val_two, Fin.mk_one, Fin.zero_eta,
        Fin.reduceFinMk, Nat.mul_zero, Nat.add_zero, List.drop_succ_cons, List.drop_zero,
        List.take_succ_cons, List.take_zero] at this ⊢ <;> omega

theorem sglist_desc_encode_decode (bs : List Nat) (hl : bs.length = 40) (hb : is_bytes bs) :
    (octep_vf_tx_sglist_desc.decode bs).encode = bs := by
  have h8 : chunk 32 8 bs ++ bs.drop 40 = bs.drop 32 := chunk_append_drop 32 8 bs
  have h7 : chunk 24 8 bs ++ bs.drop 32 = bs.drop 24 := chunk_append_drop 24 8 bs
  have h6 : chunk 16 8 bs ++ bs.drop 24 = bs.drop 16 := chunk_append_drop 16 8 bs
  have h5 : chunk 8 8 bs ++ bs.drop 16 = bs.drop 8 := chunk_append_drop 8 8 bs
  have h4 : chunk 6 2 bs ++ bs.drop 8 = bs.drop 6 := chunk_append_drop 6 2 bs
  have h3 : chunk 4 2 bs ++ bs.drop 6 = bs.drop 4 := chunk_append_drop 4 2 bs
  have h2 : chunk 2 2 bs ++ bs.drop 4 = bs.drop 2 := chunk_append_drop 2 2 bs
  have h1 : chunk 0 2 bs ++ bs.drop 2 = bs.drop 0 := chunk_append_drop 0 2 bs
  rw [List.drop_of_length_le (by omega), List.append_nil] at h8
  show (le_bytes 2 (le_value (chunk 0 2 bs)) ++ le_bytes 2 (le_value (chunk 2 2 bs)) ++
        le_bytes 2 (le_value (chunk 4 2 bs)) ++ le_bytes 2 (le_value (chunk 6 2 bs))) ++
      (le_bytes 8 (le_value (chunk 8 8 bs)) ++ le_bytes 8 (le_value (chunk 16 8 bs)) ++
       le_bytes 8 (le_value (chunk 24 8 bs)) ++ le_bytes 8 (le_value (chunk 32 8 bs))) = bs
  rw [le_bytes_chunk 0 2 bs hb (by omega), le_bytes_chunk 2 2 bs hb (by omega),
    le_bytes_chunk 4 2 bs hb (by omega), le_bytes_chunk 6 2 bs hb (by omega),
    le_bytes_chunk 8 8 bs hb (by omega), le_bytes_chunk 16 8 bs hb (by omega),
    le_bytes_chunk 24 8 bs hb (by omega), le_bytes_chunk 32 8 bs hb (by omega)]
  simp only [List.append_assoc]
  rw [h8, h7, h6, h5, h4, h3, h2, h1, List.drop_zero]

/-! ### Claims on the record formats -/

/-- C2: codec round trip. Encoding an instruction whose fields are within their
widths to its 64-byte little-endian image and decoding it returns the same
fields; the same holds for a Scatter/Gather entry and its 40-byte image; and
every 64-byte (40-byte) string decodes and re-encodes to itself. -/
theorem codec_round_trip (d : octep_vf_tx_desc_hw) (s : octep_vf_tx_sglist_desc)
    (bs cs : List Nat) (hd : d.valid) (hs : s.valid)
    (hbl : bs.length = 64) (hb : is_bytes bs) (hcl : cs.length = 40) (hc : is_bytes cs) :
    d.encode.length = 64 ∧ is_bytes d.encode ∧
    octep_vf_tx_desc_hw.decode d.encode = d ∧
    s.encode.length = 40 ∧ is_bytes s.encode ∧
    octep_vf_tx_sglist_desc.decode s.encode = s ∧
    (octep_vf_tx_desc_hw.decode bs).valid ∧ (octep_vf_tx_desc_hw.decode bs).encode = bs ∧
    (octep_vf_tx_sglist_desc.decode cs).valid ∧
    (octep_vf_tx_sglist_desc.decode cs).encode = cs := by
  have lt_of_chunk : ∀ (l : List Nat) (off n : Nat), is_bytes l → off + n ≤ l.length →
      le_value (chunk off n l) < 256 ^ n := by
    intro l off n hl hlen
    have := le_value_lt (chunk off n l) (chunk_is_bytes off n l hl)
    rwa [chunk_length off n l hlen] at this
  refine ⟨tx_desc_encode_length d, ?_, tx_desc_decode_encode d hd,
    sglist_desc_encode_length s, ?_, sglist_desc_decode_encode s hs, ?_,
    tx_desc_encode_decode bs hbl hb, ?_, sglist_desc_encode_decode cs hcl hc⟩
  · intro b hb'
    simp only [octep_vf_tx_desc_hw.encode, tx_mdata.encode, List.mem_append] at hb'
    rcases hb' with ((h | h) | (((h | h) | h) | h) | h) | (((h | h) | h) | h) <;>
      exact le_bytes_is_bytes _ _ b h
  · intro b hb'
    simp only [octep_vf_tx_sglist_desc.encode, List.mem_append] at hb'
    rcases hb' with (((h | h) | h) | h) | (((h | h) | h) | h) <;>
      exact le_bytes_is_bytes _ _ b h
  · have hm : is_bytes (chunk 16 16 bs) := chunk_is_bytes 16 16 bs hb
    have hml : (chunk 16 16 bs).length = 16 := chunk_length 16 16 bs (by omega)
    refine ⟨lt_of_chunk bs 0 8 hb (by omega), ?_, ?_, ?_⟩
    · simp only [octep_vf_tx_desc_hw.decode, octep_vf_instr_hdr.valid, of_ih64_eq, getBits]
      omega
    · exact ⟨lt_of_chunk _ 0 2 hm (by omega), lt_of_chunk _ 2 2 hm (by omega),
        lt_of_chunk _ 4 2 hm (by omega), lt_of_chunk _ 6 2 hm (by omega),
        lt_of_chunk _ 8 8 hm (by omega)⟩
    · intro i
      have hi := i.isLt
      exact lt_of_chunk bs (32 + 8 * i.val) 8 hb (by omega)
  · constructor
    · intro i
      have hi := i.isLt
      exact lt_of_chunk cs (2 * i.val) 2 hc (by omega)
    · intro i
      have hi := i.isLt
      exact lt_of_chunk cs (8 + 8 * i.val) 8 hc (by omega)

/-- Witness for C2: the boundary values tlen = 65535 and gsz = 16383 (and every
other field at its maximum) round-trip, as do the all-ones byte strings. -/
theorem codec_round_trip_witness :
    desc_boundary.ih.tlen = 65535 ∧ desc_boundary.ih.gsz = 16383 ∧
    octep_vf_tx_desc_hw.decode desc_boundary.encode = desc_boundary ∧
    octep_vf_tx_sglist_desc.decode sglist_boundary.encode = sglist_boundary ∧
    (octep_vf_tx_desc_hw.decode (List.replicate 64 255)).encode = List.replicate 64 255 ∧
    (octep_vf_tx_sglist_desc.decode (List.replicate 40 255)).encode =
      List.replicate 40 255 :=
  have h := codec_round_trip desc_boundary sglist_boundary (List.replicate 64 255)
    (List.replicate 40 255) (by decide) (by decide) (by decide) (by decide) (by decide)
    (by decide)
  ⟨rfl, rfl, h.2.2.1, h.2.2.2.2.2.1, h.2.2.2.2.2.2.2.1, h.2.2.2.2.2.2.2.2.2⟩

/-- C3: the transmit instruction descriptor is exactly 64 bytes with no padding:
dptr at bytes 0..7, the instruction header at 8..15, the transmit metadata at
16..31 and exhdr[0..3] at 32..63; the member sizes 8 + 8 + 16 + 32 sum to 64,
each member starts where the previous one ends, and the memory image carries
each member at exactly those bytes. -/
theorem tx_desc_hw_layout :
    octep_vf_tx_desc_hw_members.map Member.name = ["dptr", "ih", "txm", "exhdr"] ∧
    octep_vf_tx_desc_hw_members.map Member.size = [8, 8, 16, 32] ∧
    structOffsets octep_vf_tx_desc_hw_members = [0, 8, 16, 32] ∧
    structSize octep_vf_tx_desc_hw_members = 64 ∧
    (octep_vf_tx_desc_hw_members.map Member.size).sum =
      structSize octep_vf_tx_desc_hw_members ∧
    List.zipWith (fun o m => o + m.size) (structOffsets octep_vf_tx_desc_hw_members)
        octep_vf_tx_desc_hw_members =
      (structOffsets octep_vf_tx_desc_hw_members).tail ++
        [structSize octep_vf_tx_desc_hw_members] ∧
    (∀ i, i < 4 → elemOffset 32 (scalar "u64" 8) i = 32 + 8 * i) ∧
    (∀ d : octep_vf_tx_desc_hw,
      d.encode.length = 64 ∧
      chunk 0 8 d.encode = le_bytes 8 d.dptr ∧
      chunk 8 8 d.encode = le_bytes 8 d.ih.ih64 ∧
      chunk 16 16 d.encode = d.txm.encode ∧
      chunk 16 8 d.encode = le_bytes 8 (d.txm.txm64 0) ∧
      chunk 24 8 d.encode = le_bytes 8 (d.txm.txm64 1) ∧
      ∀ i : Fin 4, chunk (32 + 8 * i.val) 8 d.encode = le_bytes 8 (d.exhdr i)) := by
  refine ⟨by decide, by decide, by decide, by decide, by decide, by decide, ?_, ?_⟩
  · intro i _
    simp only [elemOffset, scalar]
    omega
  · intro d
    obtain ⟨dptr, ih, ⟨ol_flags, gso_size, gso_segs, rsvd1, rsvd2⟩, exhdr⟩ := d
    refine ⟨tx_desc_encode_length _, ?_, ?_, ?_, ?_, ?_, ?_⟩
    · simp [octep_vf_tx_desc_hw.encode, tx_mdata.encode, le_bytes, chunk]
    · simp [octep_vf_tx_desc_hw.encode, tx_mdata.encode, le_bytes, chunk]
    · simp [octep_vf_tx_desc_hw.encode, tx_mdata.encode, le_bytes, chunk]
    · simp only [octep_vf_tx_desc_hw.encode, tx_mdata.txm64, tx_mdata.encode, le_bytes, chunk,
        List.cons_append, List.nil_append, List.drop_succ_cons, List.drop_zero,
        List.take_succ_cons, List.take_zero, le_value, Nat.mul_zero, List.cons.injEq,
        and_true]
      omega
    · simp only [octep_vf_tx_desc_hw.encode, tx_mdata.txm64, tx_mdata.encode, le_bytes, chunk,
        List.cons_append, List.nil_append, List.drop_succ_cons, List.drop_zero,
        List.take_succ_cons, List.take_zero, le_value, Nat.mul_one, List.cons.injEq,
        and_true]
      omega
    · intro i
      fin_cases i <;> simp [octep_vf_tx_desc_hw.encode, tx_mdata.encode, le_bytes, chunk]

/-- C4: the Scatter/Gather entry is exactly 40 bytes laid out as two parallel
arrays with no padding: len[i] occupies bytes 2i..2i+1 and dma_ptr[i] bytes
8+8i..8+8i+7 for every i in 0..3, so the four lengths fill bytes 0..7 and the
four addresses bytes 8..39. -/
theorem sglist_desc_layout :
    octep_vf_tx_sglist_desc_members.map Member.name = ["len", "dma_ptr"] ∧
    octep_vf_tx_sglist_desc_members.map Member.size = [8, 32] ∧
    structOffsets octep_vf_tx_sglist_desc_members = [0, 8] ∧
    structSize octep_vf_tx_sglist_desc_members = 40 ∧
    (octep_vf_tx_sglist_desc_members.map Member.size).sum =
      structSize octep_vf_tx_sglist_desc_members ∧
    (∀ i, i < 4 → elemOffset 0 (scalar "u16" 2) i = 2 * i ∧
      elemOffset 8 dma_addr_t i = 8 + 8 * i) ∧
    (∀ s : octep_vf_tx_sglist_desc,
      s.encode.length = 40 ∧
      (∀ i : Fin 4, chunk (2 * i.val) 2 s.encode = le_bytes 2 (s.len i)) ∧
      (∀ i : Fin 4, chunk (8 + 8 * i.val) 8 s.encode = le_bytes 8 (s.dma_ptr i)) ∧
      chunk 0 8 s.encode =
        le_bytes 2 (s.len 0) ++ le_bytes 2 (s.len 1) ++ le_bytes 2 (s.len 2) ++
          le_bytes 2 (s.len 3) ∧
      chunk 8 32 s.encode =
        le_bytes 8 (s.dma_ptr 0) ++ le_bytes 8 (s.dma_ptr 1) ++ le_bytes 8 (s.dma_ptr 2) ++
          le_bytes 8 (s.dma_ptr 3)) := by
  refine ⟨by decide, by decide, by decide, by decide, by decide, ?_, ?_⟩
  · intro i _
    simp only [elemOffset, scalar, dma_addr_t]
    omega
  · intro s
    refine ⟨sglist_desc_encode_length s, ?_, ?_, ?_, ?_⟩
    · intro i
      fin_cases i <;> simp [octep_vf_tx_sglist_desc.encode, le_bytes, chunk]
    · intro i
      fin_cases i <;> simp [octep_vf_tx_sglist_desc.encode, le_bytes, chunk]
    · simp [octep_vf_tx_sglist_desc.encode, le_bytes, chunk]
    · simp [octep_vf_tx_sglist_desc.encode, le_bytes, chunk]

/-- C5 as stated fails: in the entry with len = [1, 2, 3, 4], bits 63..48 of the
first little-endian word hold len[3] = 4, not len[0] = 1, and bits 15..0 hold
len[0] = 1, not len[3] = 4. -/
theorem sglist_len0_not_in_top_bits :
    sglist_sample.valid ∧ sglist_sample.len 0 = 1 ∧ sglist_sample.len 3 = 4 ∧
    getBits (sglist_sample.word 0) 48 16 = 4 ∧
    getBits (sglist_sample.word 0) 48 16 ≠ sglist_sample.len 0 ∧
    getBits (sglist_sample.word 0) 0 16 ≠ sglist_sample.len 3 := by
  decide

/-- C5 (amended): in the first little-endian 64-bit word of an encoded
Scatter/Gather entry, the array element len[3] occupies bits 63..48, len[2]
bits 47..32, len[1] bits 31..16 and len[0] bits 15..0, so the field drawn as
Len k in the hardware format is len[3 - k]; the following four 64-bit words
are dma_ptr[0..3] in that order. -/
theorem sglist_hw_format (s : octep_vf_tx_sglist_desc) (hv : s.valid) :
    s.word 0 = s.len 0 + s.len 1 * 2 ^ 16 + s.len 2 * 2 ^ 32 + s.len 3 * 2 ^ 48 ∧
    getBits (s.word 0) 48 16 = s.len 3 ∧
    getBits (s.word 0) 32 16 = s.len 2 ∧
    getBits (s.word 0) 16 16 = s.len 1 ∧
    getBits (s.word 0) 0 16 = s.len 0 ∧
    (∀ k : Fin 4, getBits (s.word 0) (48 - 16 * k.val) 16 = s.len (3 - k)) ∧
    (∀ i : Fin 4, s.word (i.val + 1) = s.dma_ptr i) := by
  obtain ⟨len, dma_ptr⟩ := s
  obtain ⟨hlen, hptr⟩ := hv
  simp only at hlen hptr
  have h0 := hlen 0
  have h1 := hlen 1
  have h2 := hlen 2
  have h3 := hlen 3
  have hw : (octep_vf_tx_sglist_desc.mk len dma_ptr).word 0 =
      len 0 + len 1 * 2 ^ 16 + len 2 * 2 ^ 32 + len 3 * 2 ^ 48 := by
    simp only [octep_vf_tx_sglist_desc.word, octep_vf_tx_sglist_desc.encode, le_bytes, chunk,
      List.cons_append, List.nil_append, List.drop_succ_cons, List.drop_zero,
      List.take_succ_cons, List.take_zero, le_value, Nat.mul_zero]
    omega
  refine ⟨hw, ?_, ?_, ?_, ?_, ?_, ?_⟩
  · rw [hw]; simp only [getBits]; omega
  · rw [hw]; simp only [getBits]; omega
  · rw [hw]; simp only [getBits]; omega
  · rw [hw]; simp only [getBits]; omega
  · intro k
    rw [hw]
    fin_cases k <;> simp only [getBits] <;> simp <;> omega
  · intro i
    have := hptr i
    fin_cases i <;>
      simp only [octep_vf_tx_sglist_desc.word, octep_vf_tx_sglist_desc.encode, le_bytes, chunk,
        List.cons_append, List.nil_append, List.drop_succ_cons, List.drop_zero,
        List.take_succ_cons, List.take_zero, le_value, Fin.val_zero, Fin.val_one, Fin.val_two,
        Fin.mk_one, Fin.zero_eta, Fin.reduceFinMk, Nat.reduceAdd, Nat.reduceMul] at this ⊢ <;>
      omega

/-- Witness for C5 (amended): the sample entry with len = [1, 2, 3, 4]. -/
theorem sglist_hw_format_witness :
    sglist_sample.valid ∧
    getBits (sglist_sample.word 0) 48 16 = sglist_sample.len 3 ∧
    getBits (sglist_sample.word 0) 0 16 = sglist_sample.len 0 ∧
    sglist_sample.word 1 = sglist_sample.dma_ptr 0 :=
  have h := sglist_hw_format sglist_sample (by decide)
  ⟨by decide, h.2.1, h.2.2.2.2.1, h.2.2.2.2.2.2 0⟩

/-! ### Scatter/Gather sizing -/

theorem ceil_div_four (a : Nat) : ceil_div a 4 = (a + 3) / 4 := by
  unfold ceil_div
  split <;> omega

theorem ceil_div_four_eq_ceil (a : Nat) : (ceil_div a 4 : ℤ) = ⌈(a : ℚ) / 4⌉ := by
  rw [ceil_div_four]
  obtain ⟨z, hz⟩ : ∃ z, z = (a + 3) / 4 := ⟨_, rfl⟩
  rw [← hz]
  have h1 : a ≤ 4 * z := by omega
  have h2 : 4 * z ≤ a + 3 := by omega
  have h1q : (a : ℚ) ≤ 4 * (z : ℚ) := by exact_mod_cast h1
  have h2q : 4 * (z : ℚ) ≤ (a : ℚ) + 3 := by exact_mod_cast h2
  symm
  rw [Int.ceil_eq_iff]
  simp only [Int.cast_natCast]
  constructor
  · rw [lt_div_iff₀ (by norm_num)]
    linarith
  · rw [div_le_iff₀ (by norm_num)]
    linarith

theorem sglist_entries_in_range (m : Nat) (hm : m ≤ 2147483643) :
    OCTEP_VF_SGLIST_ENTRIES_PER_PKT m = (((m + 1 + 3) / 4 : Nat) : Int) := by
  have e1 : s32 (m : Int) = m := by unfold s32; omega
  have e2 : s32 ((m : Int) + 1) = m + 1 := by unfold s32; omega
  have e3 : s32 ((m : Int) + 1 + 3) = m + 1 + 3 := by unfold s32; omega
  unfold OCTEP_VF_SGLIST_ENTRIES_PER_PKT
  rw [e1, e2, e3, Int.tdiv_eq_ediv (by omega) (by decide)]
  omega

theorem sglist_size_in_range (m : Nat) (hm : m ≤ 2147483643) :
    OCTEP_VF_SGLIST_SIZE_PER_PKT m = 40 * ((m + 1 + 3) / 4) := by
  unfold OCTEP_VF_SGLIST_SIZE_PER_PKT to_size_t
  rw [sglist_entries_in_range m hm, show structSize octep_vf_tx_sglist_desc_members = 40 by decide]
  have h : ((((m + 1 + 3) / 4 : Nat) : Int) % 2 ^ 64).toNat = (m + 1 + 3) / 4 := by
    omega
  rw [h]
  omega

/-- C6 as stated fails for a constant near the top of the `int` range: at
m = 2147483644 the sum m + 1 + 3 wraps to -2^31, so the macro evaluates to
-536870912 while ceil((m + 1) / 4) is 536870912. -/
theorem sglist_entries_per_pkt_overflow :
    OCTEP_VF_SGLIST_ENTRIES_PER_PKT 2147483644 = -536870912 ∧
    ceil_div (2147483644 + 1) 4 = 536870912 ∧
    OCTEP_VF_SGLIST_ENTRIES_PER_PKT 2147483644 ≠ ((ceil_div (2147483644 + 1) 4 : Nat) : Int) ∧
    ¬ ((2147483644 : Int) + 1 ≤ 4 * OCTEP_VF_SGLIST_ENTRIES_PER_PKT 2147483644) := by
  decide

/-- C6 (amended): for every value m of MAX_SKB_FRAGS up to 2147483643, the
largest for which the `int` sum m + 1 + 3 does not overflow,
OCTEP_VF_SGLIST_ENTRIES_PER_PKT = (m + 1 + 3) / 4 with truncating division
equals ceil((m + 1) / 4); it is the least r with 4 * r >= m + 1. -/
theorem sglist_entries_per_pkt_eq_ceil (m : Nat) (hm : m ≤ 2147483643) :
    OCTEP_VF_SGLIST_ENTRIES_PER_PKT m = (((m + 1 + 3) / 4 : Nat) : Int) ∧
    OCTEP_VF_SGLIST_ENTRIES_PER_PKT m = ((ceil_div (m + 1) 4 : Nat) : Int) ∧
    OCTEP_VF_SGLIST_ENTRIES_PER_PKT m = ⌈((m : ℚ) + 1) / 4⌉ ∧
    (m : Int) + 1 ≤ 4 * OCTEP_VF_SGLIST_ENTRIES_PER_PKT m ∧
    (∀ r : Int, (m : Int) + 1 ≤ 4 * r → OCTEP_VF_SGLIST_ENTRIES_PER_PKT m ≤ r) := by
  have h0 := sglist_entries_in_range m hm
  have h1 : OCTEP_VF_SGLIST_ENTRIES_PER_PKT m = ((ceil_div (m + 1) 4 : Nat) : Int) := by
    rw [h0, ceil_div_four]
  refine ⟨h0, h1, ?_, ?_, ?_⟩
  · rw [h1, ceil_div_four_eq_ceil]
    push_cast
    rfl
  · rw [h0]; omega
  · intro r hr
    rw [h0]; omega

/-- Witness for C6 (amended): the kernel default of 17 fragments gives 5
records, and the largest admitted constant gives 536870911. -/
theorem sglist_entries_per_pkt_eq_ceil_witness :
    (17 ≤ 2147483643 ∧ 2147483643 ≤ 2147483643) ∧
    OCTEP_VF_SGLIST_ENTRIES_PER_PKT 17 = 5 ∧
    OCTEP_VF_SGLIST_ENTRIES_PER_PKT 17 = ((ceil_div (17 + 1) 4 : Nat) : Int) ∧
    OCTEP_VF_SGLIST_ENTRIES_PER_PKT 2147483643 = ⌈(((2147483643 : ℕ) : ℚ) + 1) / 4⌉ ∧
    OCTEP_VF_SGLIST_ENTRIES_PER_PKT 2147483643 = 536870911 :=
  ⟨by decide, by decide, (sglist_entries_per_pkt_eq_ceil 17 (by decide)).2.1,
    (sglist_entries_per_pkt_eq_ceil 2147483643 (by decide)).2.2.1, by decide⟩

/-- C7 as stated fails for a pool sized with a constant near the top of the
`int` range: with m = 2147483644 the macro is negative, so not even the
packet with four fragments, which needs 2 records for 5 entries, fits. -/
theorem sglist_group_insufficient_overflow :
    4 ≤ 2147483644 ∧ gather_records_needed 4 = 2 ∧
    ¬ ((gather_records_needed 4 : Int) ≤ OCTEP_VF_SGLIST_ENTRIES_PER_PKT 2147483644) ∧
    ¬ (((4 : Nat) : Int) + 1 ≤ 4 * OCTEP_VF_SGLIST_ENTRIES_PER_PKT 2147483644) := by
  decide

/-- C7 (amended): for every max fragment count m up to 2147483643 the per-slot
group suffices for every admissible packet: with k <= m fragments beyond the
head, the ceil((k + 1) / 4) records the packet requires are at most
OCTEP_VF_SGLIST_ENTRIES_PER_PKT for m, and each of the k + 1 length/pointer
pairs, four to a record, lies in a record of the group. -/
theorem sglist_group_sufficient (m k : Nat) (hm : m ≤ 2147483643) (h : k ≤ m) :
    (gather_records_needed k : Int) ≤ OCTEP_VF_SGLIST_ENTRIES_PER_PKT m ∧
    ⌈((k : ℚ) + 1) / 4⌉ ≤ OCTEP_VF_SGLIST_ENTRIES_PER_PKT m ∧
    (k : Int) + 1 ≤ 4 * OCTEP_VF_SGLIST_ENTRIES_PER_PKT m ∧
    (∀ si : Nat, si < k + 1 → ((si / 4 : Nat) : Int) < OCTEP_VF_SGLIST_ENTRIES_PER_PKT m) ∧
    k + 1 ≤ 4 * gather_records_needed k := by
  have h0 := sglist_entries_in_range m hm
  have hk : gather_records_needed k = (k + 1 + 3) / 4 := ceil_div_four (k + 1)
  have hc : ⌈((k : ℚ) + 1) / 4⌉ = (gather_records_needed k : ℤ) := by
    have := ceil_div_four_eq_ceil (k + 1)
    push_cast at this
    exact this.symm
  have h1 : (gather_records_needed k : Int) ≤ OCTEP_VF_SGLIST_ENTRIES_PER_PKT m := by
    rw [hk, h0]; omega
  refine ⟨h1, ?_, ?_, ?_, ?_⟩
  · rw [hc]; exact h1
  · rw [h0]; omega
  · intro si hsi
    rw [h0]; omega
  · rw [hk]; omega

/-- Witness for C7 (amended), Scenario B: a pool sized for 6 fragments has
groups of 2 records, and a packet with 4 fragments beyond its head needs 2
records for its 5 gather entries. -/
theorem sglist_group_sufficient_witness :
    (6 ≤ 2147483643 ∧ 4 ≤ 6) ∧ OCTEP_VF_SGLIST_ENTRIES_PER_PKT 6 = 2 ∧
    gather_records_needed 4 = 2 ∧
    (gather_records_needed 4 : Int) ≤ OCTEP_VF_SGLIST_ENTRIES_PER_PKT 6 ∧
    ((4 : Nat) : Int) + 1 ≤ 4 * OCTEP_VF_SGLIST_ENTRIES_PER_PKT 6 :=
  have h := sglist_group_sufficient 6 4 (by decide) (by decide)
  ⟨by decide, by decide, by decide, h.1, h.2.2.1⟩

/-! ### Offload flags and metadata -/

theorem or_flags_lt (fs : List Nat) (h : ∀ f ∈ fs, f ∈ tx_offload_flags) :
    or_flags fs < 2 ^ 7 := by
  have key : ∀ (l : List Nat) (a : Nat), a < 2 ^ 7 → (∀ f ∈ l, f ∈ tx_offload_flags) →
      l.foldl (fun a f => a ||| f) a < 2 ^ 7 := by
    intro l
    induction l with
    | nil => intro a ha _; exact ha
    | cons f l ih =>
      intro a ha hl
      have hf : f < 2 ^ 7 := by
        have := hl f (List.mem_cons_self _ _)
        simp only [tx_offload_flags, List.mem_cons, List.mem_singleton, List.not_mem_nil,
          or_false] at this
        rcases this with h | h | h | h | h | h | h <;> rw [h] <;> decide
      exact ih (a ||| f) (Nat.or_lt_two_pow ha hf) (fun g hg => hl g (List.mem_cons_of_mem _ hg))
  exact key fs 0 (by decide) h

/-- C8: each transmit offload flag is the single bit the interface assigns to
it (VLAN insert 2^0, IPv4 checksum 2^1, UDP checksum 2^2, TCP checksum 2^3,
SCTP checksum 2^4, TCP TSO 2^5, UDP TSO 2^6); the seven masks are pairwise
disjoint and every combination of them fits the 16-bit ol_flags field. -/
theorem tx_offload_flag_bits :
    OCTEP_VF_TX_OFFLOAD_VLAN_INSERT = 2 ^ 0 ∧ OCTEP_VF_TX_OFFLOAD_IPV4_CKSUM = 2 ^ 1 ∧
    OCTEP_VF_TX_OFFLOAD_UDP_CKSUM = 2 ^ 2 ∧ OCTEP_VF_TX_OFFLOAD_TCP_CKSUM = 2 ^ 3 ∧
    OCTEP_VF_TX_OFFLOAD_SCTP_CKSUM = 2 ^ 4 ∧ OCTEP_VF_TX_OFFLOAD_TCP_TSO = 2 ^ 5 ∧
    OCTEP_VF_TX_OFFLOAD_UDP_TSO = 2 ^ 6 ∧
    tx_offload_flags.Pairwise (fun a b => a &&& b = 0) ∧
    or_flags tx_offload_flags = 2 ^ 7 - 1 ∧
    (∀ fs : List Nat, (∀ f ∈ fs, f ∈ tx_offload_flags) →
      or_flags fs < 2 ^ 16 ∧ or_flags fs % 2 ^ 16 = or_flags fs ∧
      ∀ m : tx_mdata, chunk 0 2 ({ m with ol_flags := or_flags fs }).encode =
        le_bytes 2 (or_flags fs) ∧
        le_value (le_bytes 2 (or_flags fs)) = or_flags fs) := by
  refine ⟨by decide, by decide, by decide, by decide, by decide, by decide, by decide,
    by decide, by decide, ?_⟩
  intro fs hfs
  have h := or_flags_lt fs hfs
  have h16 : or_flags fs < 2 ^ 16 := lt_trans h (by decide)
  refine ⟨h16, Nat.mod_eq_of_lt h16, ?_⟩
  intro m
  constructor
  · simp [tx_mdata.encode, le_bytes, chunk]
  · rw [le_value_le_bytes]
    exact Nat.mod_eq_of_lt h16

/-- C9: the transmit metadata block is exactly 16 bytes with no padding, and its
two views agree: txm64[0] = ol_flags + gso_size * 2^16 + gso_segs * 2^32 +
rsvd1 * 2^48 and txm64[1] = rsvd2. With the unused fields zero, txm64[1] = 0
and bits 48..63 of txm64[0] are zero; both words are zero exactly when every
field is zero. -/
theorem tx_mdata_views (m : tx_mdata) (hv : m.valid) :
    structSize tx_mdata_members = 16 ∧
    structOffsets tx_mdata_members = [0, 2, 4, 6, 8] ∧
    (tx_mdata_members.map Member.size).sum = structSize tx_mdata_members ∧
    m.encode.length = 16 ∧
    m.txm64 0 = m.ol_flags + m.gso_size * 2 ^ 16 + m.gso_segs * 2 ^ 32 + m.rsvd1 * 2 ^ 48 ∧
    m.txm64 1 = m.rsvd2 ∧
    (m.rsvd1 = 0 → m.rsvd2 = 0 → m.txm64 1 = 0 ∧ getBits (m.txm64 0) 48 16 = 0) ∧
    ((m.txm64 0 = 0 ∧ m.txm64 1 = 0) ↔
      (m.ol_flags = 0 ∧ m.gso_size = 0 ∧ m.gso_segs = 0 ∧ m.rsvd1 = 0 ∧ m.rsvd2 = 0)) := by
  obtain ⟨ol_flags, gso_size, gso_segs, rsvd1, rsvd2⟩ := m
  simp only [tx_mdata.valid] at hv
  have h0 : (tx_mdata.mk ol_flags gso_size gso_segs rsvd1 rsvd2).txm64 0 =
      ol_flags + gso_size * 2 ^ 16 + gso_segs * 2 ^ 32 + rsvd1 * 2 ^ 48 := by
    simp only [tx_mdata.txm64, tx_mdata.encode, le_bytes, chunk, List.cons_append,
      List.nil_append, List.drop_succ_cons, List.drop_zero, List.take_succ_cons,
      List.take_zero, le_value, Nat.mul_zero]
    omega
  have h1 : (tx_mdata.mk ol_flags gso_size gso_segs rsvd1 rsvd2).txm64 1 = rsvd2 := by
    simp only [tx_mdata.txm64, tx_mdata.encode, le_bytes, chunk, List.cons_append,
      List.nil_append, List.drop_succ_cons, List.drop_zero, List.take_succ_cons,
      List.take_zero, le_value, Nat.mul_one]
    omega
  refine ⟨by decide, by decide, by decide, tx_mdata_encode_length _, h0, h1, ?_, ?_⟩
  · intro hr1 hr2
    simp only at hr1 hr2
    rw [h0, h1]
    simp only [getBits]
    omega
  · rw [h0, h1]
    simp only
    omega

/-- Witness for C9: a block carrying only ol_flags, gso_size and gso_segs. -/
theorem tx_mdata_views_witness :
    desc_gather5.txm.valid ∧
    desc_gather5.txm.txm64 0 = 0x2a + 1448 * 2 ^ 16 + 2 * 2 ^ 32 + 0 * 2 ^ 48 ∧
    desc_gather5.txm.txm64 1 = 0 ∧ getBits (desc_gather5.txm.txm64 0) 48 16 = 0 :=
  have h := tx_mdata_views desc_gather5.txm (by decide)
  ⟨by decide, h.2.2.2.2.1, h.2.2.2.2.2.1, (h.2.2.2.2.2.2.1 rfl rfl).2⟩

/-! ### The ring of the instruction queue -/

theorem mod_wrap (x n : Nat) (hx : x < 2 * n) :
    x % n = if x < n then x else x - n := by
  split
  · next h => exact Nat.mod_eq_of_lt h
  · next h =>
    rw [Nat.mod_eq_sub_mod (by omega)]
    exact Nat.mod_eq_of_lt (by omega)

theorem two_pow_bounds (k : Nat) (hk : k ≤ 16) : 1 ≤ 2 ^ k ∧ 2 ^ k ≤ 65536 := by
  constructor
  · exact Nat.one_le_two_pow
  · have := Nat.pow_le_pow_right (show 0 < 2 by decide) hk
    simpa using this

/-- Advancing an index below the capacity by less than the capacity, with the
wrap mask and the 16-bit store. -/
theorem index_wrap (k x : Nat) (hk : k ≤ 16) (hx : x < 2 * 2 ^ k) :
    u16 (x &&& (2 ^ k - 1)) = if x < 2 ^ k then x else x - 2 ^ k := by
  obtain ⟨h1, h2⟩ := two_pow_bounds k hk
  rw [Nat.and_pow_two_sub_one_eq_mod, mod_wrap x (2 ^ k) hx]
  unfold u16
  split <;> exact Nat.mod_eq_of_lt (by omega)

theorem iq_init_wf (k thr : Nat) (hk : k ≤ 16) : iq_wf k (iq_init (2 ^ k) thr) := by
  obtain ⟨h1, h2⟩ := two_pow_bounds k hk
  have e1 : u32 (2 ^ k) = 2 ^ k := Nat.mod_eq_of_lt (by omega)
  have e2 : u32 (2 ^ k + 2 ^ 32 - 1) = 2 ^ k - 1 := by
    unfold u32; omega
  have z : (0 : Nat) < 2 ^ 64 := by decide
  refine ⟨e1, ?_, z, z, rfl, ?_⟩
  · show u32 (u32 (2 ^ k) + 2 ^ 32 - 1) = 2 ^ k - 1
    rw [e1]; exact e2
  · simp only [ring_invariant, in_flight, ring_dist, ring_dist_n, pending_instr, iq_init, e1]
    simp

theorem iq_post_wf (k : Nat) (hk : k ≤ 16) (q : octep_vf_iq) (h : iq_wf k q) :
    iq_wf k (iq_post q).2 := by
  obtain ⟨h1, h2⟩ := two_pow_bounds k hk
  obtain ⟨w, r, f, ⟨p, c, d, b, sg, tb, rc⟩, N, mask, fc, ft⟩ := q
  obtain ⟨hN, hM, hp, hc, hrf, hf, hr, hw, hord, hfl, hpend⟩ := h
  simp only at hN hM hp hc hrf hf hr hw
  subst hN hM hrf
  by_cases hfull : iq_full ⟨w, r, r, ⟨p, c, d, b, sg, tb, rc⟩, 2 ^ k, 2 ^ k - 1, fc, ft⟩
  · simp only [iq_post, if_pos hfull]
    exact ⟨rfl, rfl, hp, hc, rfl, hf, hr, hw, hord, hfl, hpend⟩
  · simp only [iq_post, if_neg hfull]
    have hwrap := index_wrap k (w + 1) hk (by omega)
    simp only [iq_full, in_flight, ring_dist, ring_dist_n, pending_instr] at hord hfl hpend hfull
    have m1 := mod_wrap (w + 2 ^ k - r) (2 ^ k) (by omega)
    have m0 := mod_wrap (r + 2 ^ k - r) (2 ^ k) (by omega)
    refine ⟨rfl, rfl, Nat.mod_lt _ (by decide), hc, rfl, ?_⟩
    simp only [ring_invariant, in_flight, ring_dist, ring_dist_n, pending_instr, u64, hwrap]
    split_ifs at m1 m0 ⊢
    all_goals
      first
      | (have m2 := mod_wrap (w + 1 + 2 ^ k - r) (2 ^ k) (by omega)
         split_ifs at m2 <;> omega)
      | (have m2 := mod_wrap (w + 1 - 2 ^ k + 2 ^ k - r) (2 ^ k) (by omega)
         split_ifs at m2 <;> omega)

theorem iq_announce_wf (k : Nat) (q : octep_vf_iq) (h : iq_wf k q) :
    iq_wf k (iq_announce q) := by
  unfold iq_announce
  split
  · exact h
  · exact h

theorem iq_reclaim_wf (k : Nat) (hk : k ≤ 16) (q : octep_vf_iq) (done : Nat)
    (h : iq_wf k q) : iq_wf k (iq_reclaim q done).2 := by
  obtain ⟨h1, h2⟩ := two_pow_bounds k hk
  obtain ⟨w, r, f, ⟨p, c, d, b, sg, tb, rc⟩, N, mask, fc, ft⟩ := q
  obtain ⟨hN, hM, hp, hc, hrf, hf, hr, hw, hord, hfl, hpend⟩ := h
  simp only at hN hM hp hc hrf hf hr hw
  subst hN hM hrf
  simp only [in_flight, ring_dist, ring_dist_n, pending_instr] at hord hfl hpend
  have m1 := mod_wrap (w + 2 ^ k - r) (2 ^ k) (by omega)
  obtain ⟨n, hn⟩ : ∃ n, n = min done ((w + 2 ^ k - r) % 2 ^ k) := ⟨_, rfl⟩
  have hn1 : n ≤ (w + 2 ^ k - r) % 2 ^ k := by rw [hn]; exact Nat.min_le_right _ _
  have hwrap := index_wrap k (r + n) hk (by omega)
  have key : iq_wf k ⟨w, u16 ((r + n) &&& (2 ^ k - 1)), u16 ((r + n) &&& (2 ^ k - 1)),
      ⟨p, u64 (c + n), d, b, sg, tb, rc⟩, 2 ^ k, 2 ^ k - 1, fc, ft⟩ := by
    refine ⟨rfl, rfl, hp, Nat.mod_lt _ (by decide), rfl, ?_⟩
    simp only [ring_invariant, in_flight, ring_dist, ring_dist_n, pending_instr, u64, hwrap]
    split_ifs at m1 ⊢
    all_goals
      first
      | (have m2 := mod_wrap (w + 2 ^ k - (r + n)) (2 ^ k) (by omega)
         have m3 := mod_wrap (r + n + 2 ^ k - (r + n)) (2 ^ k) (by omega)
         split_ifs at m2 m3 <;> omega)
      | (have m2 := mod_wrap (w + 2 ^ k - (r + n - 2 ^ k)) (2 ^ k) (by omega)
         have m3 := mod_wrap (r + n - 2 ^ k + 2 ^ k - (r + n - 2 ^ k)) (2 ^ k) (by omega)
         split_ifs at m2 m3 <;> omega)
  simp only [iq_reclaim, in_flight, ring_dist, ring_dist_n, ← hn]
  split_ifs
  · exact key
  · exact key

theorem iq_step_wf (k : Nat) (hk : k ≤ 16) (q : octep_vf_iq) (op : IqOp) (h : iq_wf k q) :
    iq_wf k (iq_step q op) := by
  cases op with
  | post => exact iq_post_wf k hk q h
  | announce => exact iq_announce_wf k q h
  | reclaim done => exact iq_reclaim_wf k hk q done h

theorem iq_run_wf (k : Nat) (hk : k ≤ 16) (ops : List IqOp) (q : octep_vf_iq)
    (h : iq_wf k q) : iq_wf k (iq_run q ops) := by
  induction ops generalizing q with
  | nil => exact h
  | cons op ops ih => exact ih (iq_step q op) (iq_step_wf k hk q op h)

/-- The read index and the flush index of a queue move together. -/
theorem iq_step_read_eq_flush (q : octep_vf_iq) (op : IqOp)
    (h : q.octep_vf_read_index = q.flush_index) :
    (iq_step q op).octep_vf_read_index = (iq_step q op).flush_index := by
  cases op with
  | post =>
    simp only [iq_step, iq_post]
    split <;> exact h
  | announce =>
    simp only [iq_step, iq_announce]
    split <;> exact h
  | reclaim done =>
    simp only [iq_step, iq_reclaim, h]
    split <;> rfl

theorem iq_run_read_eq_flush (ops : List IqOp) (q : octep_vf_iq)
    (h : q.octep_vf_read_index = q.flush_index) :
    (iq_run q ops).octep_vf_read_index = (iq_run q ops).flush_index := by
  induction ops generalizing q with
  | nil => exact h
  | cons op ops ih => exact ih (iq_step q op) (iq_step_read_eq_flush q op h)

theorem store_signed_small (w : Nat) (hw : 8 ≤ w) (x : Int) (h1 : -128 ≤ x) (h2 : x < 128) :
    store_signed w x = x := by
  obtain ⟨n, rfl⟩ : ∃ n, w = n + 8 := ⟨w - 8, by omega⟩
  have hp : (2 : Int) ^ (n + 8) = 2 * 2 ^ (n + 7) := by
    rw [pow_succ]; ring
  have hge : (128 : Int) ≤ 2 ^ (n + 7) := by
    have h : (1 : Int) ≤ 2 ^ n := one_le_pow₀ (by norm_num)
    have e : (2 : Int) ^ (n + 7) = 2 ^ n * 128 := by rw [pow_add]; norm_num
    rw [e]; linarith
  unfold store_signed
  rw [show n + 8 - 1 = n + 7 from rfl, hp, Int.emod_eq_of_lt (by linarith) (by linarith)]
  ring

/-- C12: the three transmit result codes IQ_SEND_OK (0), IQ_SEND_STOP (1) and
IQ_SEND_FAILED (-1) are pairwise distinct, and they remain three different
values when stored in a signed integer type of at least 8 bits. -/
theorem iq_send_codes_distinct (w : Nat) (hw : 8 ≤ w) :
    IQ_SEND_OK = 0 ∧ IQ_SEND_STOP = 1 ∧ IQ_SEND_FAILED = -1 ∧
    iq_send_codes.Nodup ∧
    store_signed w IQ_SEND_OK = 0 ∧ store_signed w IQ_SEND_STOP = 1 ∧
    store_signed w IQ_SEND_FAILED = -1 ∧
    (iq_send_codes.map (store_signed w)).Nodup := by
  have h0 : store_signed w IQ_SEND_OK = 0 :=
    store_signed_small w hw 0 (by decide) (by decide)
  have h1 : store_signed w IQ_SEND_STOP = 1 :=
    store_signed_small w hw 1 (by decide) (by decide)
  have h2 : store_signed w IQ_SEND_FAILED = -1 :=
    store_signed_small w hw (-1) (by decide) (by decide)
  refine ⟨rfl, rfl, rfl, by decide, h0, h1, h2, ?_⟩
  simp only [iq_send_codes, List.map_cons, List.map_nil, h0, h1, h2]
  decide

/-- Witness for C12: the codes stored in a signed 8-bit and in a signed 32-bit
integer. -/
theorem iq_send_codes_distinct_witness :
    8 ≤ 8 ∧ store_signed 8 IQ_SEND_FAILED = -1 ∧
    (iq_send_codes.map (store_signed 8)).Nodup ∧
    (iq_send_codes.map (store_signed 32)).Nodup :=
  ⟨by decide, (iq_send_codes_distinct 8 (by decide)).2.2.2.2.2.2.1,
    (iq_send_codes_distinct 8 (by decide)).2.2.2.2.2.2.2,
    (iq_send_codes_distinct 32 (by decide)).2.2.2.2.2.2.2⟩

/-- C13: the transmit buffer-type tag has exactly three pairwise distinct values
TX_BUFTYPE_NONE, TX_BUFTYPE_NET and TX_BUFTYPE_NET_SG; NUM_TX_BUFTYPES is the
number of tags, every tag is below it, the not-posted tag is 0, the value of
a zero-initialised pending-buffer entry, and every tag is stored unchanged in
the 8-bit gather field. -/
theorem tx_buftype_tags :
    tx_buftypes = [0, 1, 2] ∧ tx_buftypes.Nodup ∧
    tx_buftypes.length = 3 ∧ NUM_TX_BUFTYPES = tx_buftypes.length ∧
    (∀ t ∈ tx_buftypes, t < NUM_TX_BUFTYPES) ∧
    (∀ t, t < NUM_TX_BUFTYPES → t ∈ tx_buftypes) ∧
    TX_BUFTYPE_NONE = 0 ∧
    octep_vf_tx_buffer.zeroed.gather = TX_BUFTYPE_NONE ∧
    (∀ t ∈ tx_buftypes, t < 2 ^ 8 ∧ u8 t = t) ∧
    (∀ (b : octep_vf_tx_buffer), ∀ t ∈ tx_buftypes, (b.set_gather t).gather = t) := by
  refine ⟨rfl, by decide, rfl, rfl, by decide, ?_, rfl, rfl, by decide, ?_⟩
  · intro t ht
    simp only [NUM_TX_BUFTYPES] at ht
    simp only [tx_buftypes, TX_BUFTYPE_NONE, TX_BUFTYPE_NET, TX_BUFTYPE_NET_SG, List.mem_cons,
      List.mem_singleton, List.not_mem_nil, or_false]
    omega
  · intro b t ht
    simp only [tx_buftypes, TX_BUFTYPE_NONE, TX_BUFTYPE_NET, TX_BUFTYPE_NET_SG, List.mem_cons,
      List.mem_singleton, List.not_mem_nil, or_false] at ht
    rcases ht with rfl | rfl | rfl <;> rfl

/-! ### Offload masks -/

theorem and_mask_ne_zero_iff (flags mask : Nat) :
    flags &&& mask ≠ 0 ↔ ∃ i, flags.testBit i = true ∧ mask.testBit i = true := by
  constructor
  · intro h
    obtain ⟨i, hi⟩ := Nat.ne_zero_implies_bit_true h
    rw [Nat.testBit_and, Bool.and_eq_true] at hi
    exact ⟨i, hi⟩
  · rintro ⟨i, h1, h2⟩ h0
    have : (flags &&& mask).testBit i = true := by
      rw [Nat.testBit_and, h1, h2]; rfl
    rw [h0, Nat.zero_testBit] at this
    exact Bool.noConfusion this

theorem testBit_cksum_mask (i : Nat) :
    OCTEP_VF_TX_OFFLOAD_CKSUM.testBit i = true ↔ i = 1 ∨ i = 2 ∨ i = 3 := by
  by_cases h : i < 4
  · have : i = 0 ∨ i = 1 ∨ i = 2 ∨ i = 3 := by omega
    rcases this with rfl | rfl | rfl | rfl <;> decide
  · have h4 : OCTEP_VF_TX_OFFLOAD_CKSUM < 2 ^ i :=
      lt_of_lt_of_le (show OCTEP_VF_TX_OFFLOAD_CKSUM < 2 ^ 4 by decide)
        (Nat.pow_le_pow_right (by decide) (by omega))
    rw [Nat.testBit_lt_two_pow h4]
    constructor
    · intro hf; exact Bool.noConfusion hf
    · intro hf; omega

theorem testBit_tso_mask (i : Nat) :
    OCTEP_VF_TX_OFFLOAD_TSO.testBit i = true ↔ i = 5 ∨ i = 6 := by
  by_cases h : i < 7
  · have : i = 0 ∨ i = 1 ∨ i = 2 ∨ i = 3 ∨ i = 4 ∨ i = 5 ∨ i = 6 := by omega
    rcases this with rfl | rfl | rfl | rfl | rfl | rfl | rfl <;> decide
  · have h4 : OCTEP_VF_TX_OFFLOAD_TSO < 2 ^ i :=
      lt_of_lt_of_le (show OCTEP_VF_TX_OFFLOAD_TSO < 2 ^ 7 by decide)
        (Nat.pow_le_pow_right (by decide) (by omega))
    rw [Nat.testBit_lt_two_pow h4]
    constructor
    · intro hf; exact Bool.noConfusion hf
    · intro hf; omega

/-- C16: for every offload flag word, OCTEP_VF_TX_IP_CSUM(flags) equals
flags & OCTEP_VF_TX_OFFLOAD_CKSUM and is non-zero exactly when one of the
IPv4, UDP or TCP checksum bits (bits 1, 2, 3) is set; OCTEP_VF_TX_TSO(flags)
equals flags & OCTEP_VF_TX_OFFLOAD_TSO and is non-zero exactly when bit 5 or 6
is set; the two masks share no bit, and a flag word with only the VLAN-insert
and SCTP-checksum bits makes both macros 0. -/
theorem tx_csum_tso_macros (flags : Nat) :
    OCTEP_VF_TX_IP_CSUM flags = flags &&& OCTEP_VF_TX_OFFLOAD_CKSUM ∧
    (OCTEP_VF_TX_IP_CSUM flags ≠ 0 ↔
      (flags.testBit 1 = true ∨ flags.testBit 2 = true ∨ flags.testBit 3 = true)) ∧
    OCTEP_VF_TX_TSO flags = flags &&& OCTEP_VF_TX_OFFLOAD_TSO ∧
    (OCTEP_VF_TX_TSO flags ≠ 0 ↔ (flags.testBit 5 = true ∨ flags.testBit 6 = true)) ∧
    OCTEP_VF_TX_OFFLOAD_CKSUM &&& OCTEP_VF_TX_OFFLOAD_TSO = 0 ∧
    OCTEP_VF_TX_OFFLOAD_CKSUM = 2 ^ 1 + 2 ^ 2 + 2 ^ 3 ∧
    OCTEP_VF_TX_OFFLOAD_TSO = 2 ^ 5 + 2 ^ 6 ∧
    (flags &&& (OCTEP_VF_TX_OFFLOAD_VLAN_INSERT ||| OCTEP_VF_TX_OFFLOAD_SCTP_CKSUM) = flags →
      OCTEP_VF_TX_IP_CSUM flags = 0 ∧ OCTEP_VF_TX_TSO flags = 0) ∧
    (∀ f ∈ [0, OCTEP_VF_TX_OFFLOAD_VLAN_INSERT, OCTEP_VF_TX_OFFLOAD_SCTP_CKSUM,
        OCTEP_VF_TX_OFFLOAD_VLAN_INSERT ||| OCTEP_VF_TX_OFFLOAD_SCTP_CKSUM],
      OCTEP_VF_TX_IP_CSUM f = 0 ∧ OCTEP_VF_TX_TSO f = 0) := by
  have e1 : OCTEP_VF_TX_IP_CSUM flags = flags &&& OCTEP_VF_TX_OFFLOAD_CKSUM := by
    unfold OCTEP_VF_TX_IP_CSUM
    exact congrArg (fun m => flags &&& m) (by decide)
  have e2 : OCTEP_VF_TX_TSO flags = flags &&& OCTEP_VF_TX_OFFLOAD_TSO := rfl
  refine ⟨e1, ?_, e2, ?_, by decide, by decide, by decide, ?_, by decide⟩
  · rw [e1, and_mask_ne_zero_iff]
    constructor
    · rintro ⟨i, hi, hm⟩
      rcases (testBit_cksum_mask i).1 hm with rfl | rfl | rfl
      · exact Or.inl hi
      · exact Or.inr (Or.inl hi)
      · exact Or.inr (Or.inr hi)
    · rintro (h | h | h)
      · exact ⟨1, h, by decide⟩
      · exact ⟨2, h, by decide⟩
      · exact ⟨3, h, by decide⟩
  · rw [e2, and_mask_ne_zero_iff]
    constructor
    · rintro ⟨i, hi, hm⟩
      rcases (testBit_tso_mask i).1 hm with rfl | rfl
      · exact Or.inl hi
      · exact Or.inr hi
    · rintro (h | h)
      · exact ⟨5, h, by decide⟩
      · exact ⟨6, h, by decide⟩
  · intro h
    constructor
    · rw [e1, ← h, Nat.and_assoc]
      have : (OCTEP_VF_TX_OFFLOAD_VLAN_INSERT ||| OCTEP_VF_TX_OFFLOAD_SCTP_CKSUM) &&&
          OCTEP_VF_TX_OFFLOAD_CKSUM = 0 := by decide
      rw [this, Nat.and_zero]
    · rw [e2, ← h, Nat.and_assoc]
      have : (OCTEP_VF_TX_OFFLOAD_VLAN_INSERT ||| OCTEP_VF_TX_OFFLOAD_SCTP_CKSUM) &&&
          OCTEP_VF_TX_OFFLOAD_TSO = 0 := by decide
      rw [this, Nat.and_zero]

/-! ### Placement of the Scatter/Gather groups -/

/-- C17 as stated fails for a constant near the top of the `int` range: at
m = 2147483644 the count is negative and its product with the record size,
taken modulo 2^64, is 18446744052234715136, not 40 * ceil((m + 1) / 4) =
21474836480. -/
theorem sglist_size_per_pkt_overflow :
    OCTEP_VF_SGLIST_SIZE_PER_PKT 2147483644 = 18446744052234715136 ∧
    40 * ceil_div (2147483644 + 1) 4 = 21474836480 ∧
    OCTEP_VF_SGLIST_SIZE_PER_PKT 2147483644 ≠ 40 * ceil_div (2147483644 + 1) 4 := by
  decide

/-- C17 (amended): for every value m of MAX_SKB_FRAGS up to 2147483643, the
largest for which the `int` sum m + 1 + 3 does not overflow,
OCTEP_VF_SGLIST_SIZE_PER_PKT equals 40 * ceil((m + 1) / 4) bytes and is a
positive multiple of 8; with the groups laid out back to back from an
8-byte-aligned base every dma_ptr word is 8-byte aligned, every record lies
inside its group, and the byte ranges of the groups of two different slots
are disjoint. -/
theorem sglist_size_per_pkt (m : Nat) (hm : m ≤ 2147483643) :
    OCTEP_VF_SGLIST_SIZE_PER_PKT m = 40 * ceil_div (m + 1) 4 ∧
    (OCTEP_VF_SGLIST_SIZE_PER_PKT m : ℤ) = 40 * OCTEP_VF_SGLIST_ENTRIES_PER_PKT m ∧
    (OCTEP_VF_SGLIST_SIZE_PER_PKT m : ℤ) = 40 * ⌈((m : ℚ) + 1) / 4⌉ ∧
    0 < OCTEP_VF_SGLIST_SIZE_PER_PKT m ∧
    8 ∣ OCTEP_VF_SGLIST_SIZE_PER_PKT m ∧
    (∀ base i, 8 ∣ base → 8 ∣ sglist_group_addr m base i) ∧
    (∀ (base i e j : Nat), 8 ∣ base → (e : Int) < OCTEP_VF_SGLIST_ENTRIES_PER_PKT m → j < 4 →
      8 ∣ sglist_dma_ptr_addr m base i e j ∧
      sglist_group_addr m base i ≤ sglist_dma_ptr_addr m base i e j ∧
      sglist_dma_ptr_addr m base i e j + 8 ≤ sglist_group_addr m base (i + 1)) ∧
    (∀ base i, sglist_group_addr m base (i + 1) =
      sglist_group_addr m base i + OCTEP_VF_SGLIST_SIZE_PER_PKT m) ∧
    (∀ base i i2 x, i ≠ i2 →
      sglist_group_addr m base i ≤ x → x < sglist_group_addr m base (i + 1) →
      ¬ (sglist_group_addr m base i2 ≤ x ∧ x < sglist_group_addr m base (i2 + 1))) := by
  have hS := sglist_size_in_range m hm
  have hE := sglist_entries_in_range m hm
  have hc : (m + 1 + 3) / 4 = ceil_div (m + 1) 4 := (ceil_div_four (m + 1)).symm
  have hE1 : 1 ≤ (m + 1 + 3) / 4 := by omega
  have h8 : 8 ∣ OCTEP_VF_SGLIST_SIZE_PER_PKT m := ⟨5 * ((m + 1 + 3) / 4), by omega⟩
  have hstep : ∀ base i, sglist_group_addr m base (i + 1) =
      sglist_group_addr m base i + OCTEP_VF_SGLIST_SIZE_PER_PKT m := by
    intro base i
    unfold sglist_group_addr
    rw [Nat.add_mul, Nat.one_mul, Nat.add_assoc]
  have hmono : ∀ base i i2, i < i2 →
      sglist_group_addr m base (i + 1) ≤ sglist_group_addr m base i2 := by
    intro base i i2 h
    unfold sglist_group_addr
    exact Nat.add_le_add_left (Nat.mul_le_mul_right _ h) base
  have hg : ∀ base i, 8 ∣ base → 8 ∣ sglist_group_addr m base i := by
    intro base i hb
    exact Nat.dvd_add hb (Dvd.dvd.mul_left h8 i)
  refine ⟨by rw [hS, hc], ?_, ?_, by omega, h8, hg, ?_, hstep, ?_⟩
  · rw [hS, hE]
    push_cast
    rfl
  · rw [hS, hc]
    push_cast
    rw [ceil_div_four_eq_ceil]
    push_cast
    rfl
  · intro base i e j hb he hj
    rw [hE] at he
    have he2 : e < (m + 1 + 3) / 4 := by omega
    have hg1 := hg base i hb
    have hs := hstep base i
    have e40 : structSize octep_vf_tx_sglist_desc_members = 40 := by decide
    simp only [sglist_dma_ptr_addr, elemOffset, dma_addr_t, scalar, e40]
    refine ⟨?_, by omega, by omega⟩
    omega
  · intro base i i2 x hne h1 h2 h3
    rcases Nat.lt_or_gt_of_ne hne with h | h
    · have := hmono base i i2 h
      omega
    · have := hmono base i2 i h
      omega

/-- Witness for C17 (amended): with the kernel default of 17 fragments a group
is 5 records, 200 bytes. -/
theorem sglist_size_per_pkt_witness :
    17 ≤ 2147483643 ∧ OCTEP_VF_SGLIST_SIZE_PER_PKT 17 = 200 ∧
    OCTEP_VF_SGLIST_SIZE_PER_PKT 17 = 40 * ceil_div (17 + 1) 4 ∧
    8 ∣ OCTEP_VF_SGLIST_SIZE_PER_PKT 17 :=
  have h := sglist_size_per_pkt 17 (by decide)
  ⟨by decide, by decide, h.1, h.2.2.2.2.1⟩

/-! ### Writing the fields of the header -/

theorem hdr_field_lo_width :
    (HdrField.tlen.lo = 0 ∧ HdrField.tlen.width = 16) ∧
    (HdrField.rsvd.lo = 16 ∧ HdrField.rsvd.width = 20) ∧
    (HdrField.pkind.lo = 36 ∧ HdrField.pkind.width = 6) ∧
    (HdrField.fsz.lo = 42 ∧ HdrField.fsz.width = 6) ∧
    (HdrField.gsz.lo = 48 ∧ HdrField.gsz.width = 14) ∧
    (HdrField.gather.lo = 62 ∧ HdrField.gather.width = 1) ∧
    (HdrField.reserved3.lo = 63 ∧ HdrField.reserved3.width = 1) := by
  decide

theorem hdr_read_write_same (f : HdrField) (v w : Nat) :
    hdr_read f (hdr_write f v w) = v % 2 ^ f.width := by
  cases f <;>
    simp only [hdr_read, hdr_write, setBits, getBits, HdrField.lo, HdrField.width,
      HdrField.index, bitRanges, bitRangesFrom, octep_vf_instr_hdr_fields, List.getD_cons_zero,
      List.getD_cons_succ] <;>
    omega

set_option maxHeartbeats 2000000 in
theorem hdr_read_write_other (f g : HdrField) (hne : g ≠ f) (v w : Nat) :
    hdr_read g (hdr_write f v w) = hdr_read g w := by
  obtain ⟨⟨a1, a2⟩, ⟨b1, b2⟩, ⟨c1, c2⟩, ⟨d1, d2⟩, ⟨e1, e2⟩, ⟨f1, f2⟩, ⟨g1, g2⟩⟩ :=
    hdr_field_lo_width
  cases f <;> cases g <;>
    first
    | exact absurd rfl hne
    | (simp only [hdr_read, hdr_write, setBits, getBits, a1, a2, b1, b2, c1, c2, d1, d2, e1,
        e2, f1, f2, g1, g2]
       omega)

theorem hdr_write_lt (f : HdrField) (v w : Nat) (hw : w < 2 ^ 64) :
    hdr_write f v w < 2 ^ 64 := by
  cases f <;>
    simp only [hdr_write, setBits, getBits, HdrField.lo, HdrField.width,
      HdrField.index, bitRanges, bitRangesFrom, octep_vf_instr_hdr_fields, List.getD_cons_zero,
      List.getD_cons_succ] <;>
    omega

theorem getBits_lt (w lo width : Nat) : getBits w lo width < 2 ^ width :=
  Nat.mod_lt _ (Nat.two_pow_pos _)

theorem hdr_write_eq_set (f : HdrField) (v w : Nat) (hw : w < 2 ^ 64) :
    hdr_write f v w = ((octep_vf_instr_hdr.of_ih64 w).set f v).ih64 := by
  obtain ⟨⟨a1, a2⟩, ⟨b1, b2⟩, ⟨c1, c2⟩, ⟨d1, d2⟩, ⟨e1, e2⟩, ⟨f1, f2⟩, ⟨g1, g2⟩⟩ :=
    hdr_field_lo_width
  have hsum := instr_hdr_ih64_of_ih64 w hw
  rw [ih64_eq_sum, of_ih64_eq] at hsum
  simp only at hsum
  have t0 := getBits_lt w 0 16
  have t1 := getBits_lt w 16 20
  have t2 := getBits_lt w 36 6
  have t3 := getBits_lt w 42 6
  have t4 := getBits_lt w 48 14
  have t5 := getBits_lt w 62 1
  have t6 := getBits_lt w 63 1
  cases f <;>
    simp only [octep_vf_instr_hdr.set, ih64_eq_sum, of_ih64_eq, hdr_write, setBits,
      a1, a2, b1, b2, c1, c2, d1, d2, e1, e2, f1, f2, g1, g2] <;>
    omega

/-- C14: field independence of the instruction header. For every 64-bit header
word w, every field f and every value v within the width of f, writing v to
field f yields a 64-bit word in which field f reads v and each of the other
six fields reads as in w; the word is the one obtained by assigning the member
through the struct view. In particular setting gsz and gather for a gathered
packet leaves tlen, pkind and fsz unchanged. -/
theorem hdr_field_independence (w : Nat) (f : HdrField) (v : Nat) (hw : w < 2 ^ 64)
    (hv : v < 2 ^ f.width) :
    hdr_read f (hdr_write f v w) = v ∧
    (∀ g, g ≠ f → hdr_read g (hdr_write f v w) = hdr_read g w) ∧
    hdr_write f v w < 2 ^ 64 ∧
    hdr_write f v w = ((octep_vf_instr_hdr.of_ih64 w).set f v).ih64 ∧
    (∀ n, n < 2 ^ 14 →
      hdr_read HdrField.gsz (hdr_write HdrField.gather 1 (hdr_write HdrField.gsz n w)) = n ∧
      hdr_read HdrField.gather (hdr_write HdrField.gather 1 (hdr_write HdrField.gsz n w)) = 1 ∧
      hdr_read HdrField.tlen (hdr_write HdrField.gather 1 (hdr_write HdrField.gsz n w)) =
        hdr_read HdrField.tlen w ∧
      hdr_read HdrField.pkind (hdr_write HdrField.gather 1 (hdr_write HdrField.gsz n w)) =
        hdr_read HdrField.pkind w ∧
      hdr_read HdrField.fsz (hdr_write HdrField.gather 1 (hdr_write HdrField.gsz n w)) =
        hdr_read HdrField.fsz w) := by
  refine ⟨?_, fun g hg => hdr_read_write_other f g hg v w, hdr_write_lt f v w hw,
    hdr_write_eq_set f v w hw, ?_⟩
  · rw [hdr_read_write_same]
    exact Nat.mod_eq_of_lt hv
  · intro n hn
    refine ⟨?_, ?_, ?_, ?_, ?_⟩
    · rw [hdr_read_write_other HdrField.gather HdrField.gsz (by decide), hdr_read_write_same]
      exact Nat.mod_eq_of_lt hn
    · rw [hdr_read_write_same]
      rfl
    · rw [hdr_read_write_other HdrField.gather HdrField.tlen (by decide),
        hdr_read_write_other HdrField.gsz HdrField.tlen (by decide)]
    · rw [hdr_read_write_other HdrField.gather HdrField.pkind (by decide),
        hdr_read_write_other HdrField.gsz HdrField.pkind (by decide)]
    · rw [hdr_read_write_other HdrField.gather HdrField.fsz (by decide),
        hdr_read_write_other HdrField.gsz HdrField.fsz (by decide)]

/-- Witness for C14: writing gsz = 5 into the header word of a single-buffer
instruction with tlen = 1500 and fsz = 2. -/
theorem hdr_field_independence_witness :
    (1500 + 2 * 2 ^ 42 < 2 ^ 64 ∧ 5 < 2 ^ HdrField.gsz.width) ∧
    hdr_read HdrField.gsz (hdr_write HdrField.gsz 5 (1500 + 2 * 2 ^ 42)) = 5 ∧
    hdr_read HdrField.tlen (hdr_write HdrField.gsz 5 (1500 + 2 * 2 ^ 42)) =
      hdr_read HdrField.tlen (1500 + 2 * 2 ^ 42) ∧
    hdr_read HdrField.tlen (1500 + 2 * 2 ^ 42) = 1500 :=
  have h := hdr_field_independence (1500 + 2 * 2 ^ 42) HdrField.gsz 5 (by decide) (by decide)
  ⟨by decide, h.1, h.2.1 HdrField.tlen (by decide), by decide⟩

/-- C15: the header does not validate field widths. Storing any v into a field
of width n (tlen 16, gsz 14, fsz and pkind 6, gather 1) stores v mod 2^n, so
the field reads back v exactly when v < 2^n (gsz written with 16384 and tlen
written with 65536 read back 0), and even for out-of-range v every other
field of the header is unchanged. -/
theorem hdr_write_truncates (w : Nat) (f : HdrField) (v : Nat) :
    hdr_write f v w = hdr_write f (v % 2 ^ f.width) w ∧
    hdr_read f (hdr_write f v w) = v % 2 ^ f.width ∧
    (hdr_read f (hdr_write f v w) = v ↔ v < 2 ^ f.width) ∧
    (∀ g, g ≠ f → hdr_read g (hdr_write f v w) = hdr_read g w) ∧
    (w < 2 ^ 64 → hdr_write f v w < 2 ^ 64) ∧
    (HdrField.tlen.width = 16 ∧ HdrField.gsz.width = 14 ∧ HdrField.fsz.width = 6 ∧
      HdrField.pkind.width = 6 ∧ HdrField.gather.width = 1) ∧
    hdr_read HdrField.gsz (hdr_write HdrField.gsz 16384 w) = 0 ∧
    hdr_read HdrField.tlen (hdr_write HdrField.tlen 65536 w) = 0 ∧
    hdr_read HdrField.gsz (hdr_write HdrField.gsz 16383 w) = 16383 ∧
    hdr_read HdrField.tlen (hdr_write HdrField.tlen 65535 w) = 65535 := by
  have hs := hdr_read_write_same f v w
  have hpos : 0 < 2 ^ f.width := Nat.two_pow_pos _
  refine ⟨?_, hs, ?_, fun g hg => hdr_read_write_other f g hg v w, hdr_write_lt f v w,
    by decide, ?_, ?_, ?_, ?_⟩
  · simp only [hdr_write, setBits, Nat.mod_mod]
  · rw [hs]
    constructor
    · intro h
      have := Nat.mod_lt v hpos
      omega
    · exact Nat.mod_eq_of_lt
  · rw [hdr_read_write_same]; rfl
  · rw [hdr_read_write_same]; rfl
  · rw [hdr_read_write_same]; rfl
  · rw [hdr_read_write_same]; rfl

/-! ### Backpressure -/

theorem iq_post_refused (q : octep_vf_iq) (h : iq_full q) :
    iq_post q = (TxResult.QueueFull,
      { q with stats := { q.stats with instr_dropped := u64 (q.stats.instr_dropped + 1),
                                       tx_busy := u64 (q.stats.tx_busy + 1) } }) := by
  simp only [iq_post, if_pos h]

theorem iq_post_accepted (k : Nat) (hk : k ≤ 16) (q : octep_vf_iq) (h : iq_wf k q)
    (hnf : ¬ iq_full q) :
    (iq_post q).1 = TxResult.Accepted ∧ iq_wf k (iq_post q).2 ∧
    in_flight (iq_post q).2 = in_flight q + 1 ∧
    (iq_post q).2.stats.restart_cnt = q.stats.restart_cnt ∧
    (iq_post q).2.stats.instr_dropped = q.stats.instr_dropped := by
  have hwf := iq_post_wf k hk q h
  obtain ⟨h1, h2⟩ := two_pow_bounds k hk
  obtain ⟨w, r, f, ⟨p, c, d, b, sg, tb, rc⟩, N, mask, fc, ft⟩ := q
  obtain ⟨hN, hM, hp, hc, hrf, hf, hr, hw, hord, hfl, hpend⟩ := h
  simp only at hN hM hp hc hrf hf hr hw
  subst hN hM hrf
  simp only [iq_post, if_neg hnf] at hwf ⊢
  refine ⟨trivial, hwf, ?_, trivial, trivial⟩
  have hwrap := index_wrap k (w + 1) hk (by omega)
  simp only [iq_full, in_flight, ring_dist, ring_dist_n] at hfl hnf ⊢
  have m1 := mod_wrap (w + 2 ^ k - r) (2 ^ k) (by omega)
  rw [hwrap]
  split_ifs at m1 ⊢
  all_goals
    first
    | (have m2 := mod_wrap (w + 1 + 2 ^ k - r) (2 ^ k) (by omega)
       split_ifs at m2 <;> omega)
    | (have m2 := mod_wrap (w + 1 - 2 ^ k + 2 ^ k - r) (2 ^ k) (by omega)
       split_ifs at m2 <;> omega)

theorem iq_reclaim_spec (k : Nat) (hk : k ≤ 16) (q : octep_vf_iq) (done : Nat)
    (h : iq_wf k q) :
    (iq_reclaim q done).1.1 = min done (in_flight q) ∧
    iq_wf k (iq_reclaim q done).2 ∧
    in_flight (iq_reclaim q done).2 = in_flight q - min done (in_flight q) ∧
    ((iq_reclaim q done).1.2 = true ↔ ¬ iq_full (iq_reclaim q done).2) ∧
    (iq_reclaim q done).2.stats.restart_cnt =
      (if iq_full q ∧ ¬ iq_full (iq_reclaim q done).2 then u64 (q.stats.restart_cnt + 1)
       else q.stats.restart_cnt) ∧
    (iq_reclaim q done).2.stats.instr_dropped = q.stats.instr_dropped := by
  have hwf := iq_reclaim_wf k hk q done h
  obtain ⟨h1, h2⟩ := two_pow_bounds k hk
  obtain ⟨w, r, f, ⟨p, c, d, b, sg, tb, rc⟩, N, mask, fc, ft⟩ := q
  obtain ⟨hN, hM, hp, hc, hrf, hf, hr, hw, hord, hfl, hpend⟩ := h
  simp only at hN hM hp hc hrf hf hr hw
  subst hN hM hrf
  simp only [in_flight, ring_dist, ring_dist_n] at hfl
  have m1 := mod_wrap (w + 2 ^ k - r) (2 ^ k) (by omega)
  obtain ⟨n, hn⟩ : ∃ n, n = min done ((w + 2 ^ k - r) % 2 ^ k) := ⟨_, rfl⟩
  have hn1 : n ≤ (w + 2 ^ k - r) % 2 ^ k := by rw [hn]; exact Nat.min_le_right _ _
  have hwrap := index_wrap k (r + n) hk (by omega)
  have hfl2 : (w + 2 ^ k - u16 ((r + n) &&& (2 ^ k - 1))) % 2 ^ k =
      (w + 2 ^ k - r) % 2 ^ k - n := by
    rw [hwrap]
    split_ifs at m1 ⊢
    all_goals
      first
      | (have m2 := mod_wrap (w + 2 ^ k - (r + n)) (2 ^ k) (by omega)
         split_ifs at m2 <;> omega)
      | (have m2 := mod_wrap (w + 2 ^ k - (r + n - 2 ^ k)) (2 ^ k) (by omega)
         split_ifs at m2 <;> omega)
  simp only [iq_reclaim, iq_full, in_flight, ring_dist, ring_dist_n, ← hn] at hwf ⊢
  refine ⟨trivial, hwf, ?_, ?_, ?_, ?_⟩
  · split_ifs <;> exact hfl2
  · split_ifs <;> simp
  · split_ifs <;> rfl
  · split_ifs <;> rfl

theorem post_until_full_spec (k : Nat) (hk : k ≤ 16) (d : Nat) :
    ∀ (q : octep_vf_iq) (fuel : Nat), iq_wf k q → in_flight q + d = 2 ^ k - 1 → d < fuel →
      ∃ q1, post_until_full fuel q = some (d, q1) ∧ iq_wf k q1 ∧ iq_full q1 ∧
        in_flight q1 = 2 ^ k - 1 ∧ q1.stats.restart_cnt = q.stats.restart_cnt ∧
        q1.stats.instr_dropped = u64 (q.stats.instr_dropped + 1) := by
  induction d with
  | zero =>
    intro q fuel h hd hfuel
    obtain ⟨fuel, rfl⟩ : ∃ n, fuel = n + 1 := ⟨fuel - 1, by omega⟩
    have hN : q.max_count = 2 ^ k := h.1
    have hfull : iq_full q := by
      unfold iq_full; rw [hN]; omega
    have e := iq_post_refused q hfull
    refine ⟨(iq_post q).2, ?_, iq_post_wf k hk q h, ?_, ?_, ?_, ?_⟩
    · rw [post_until_full, e]
    · rw [e]; exact hfull
    · rw [e]; exact hd
    · rw [e]
    · rw [e]
  | succ d ih =>
    intro q fuel h hd hfuel
    obtain ⟨fuel, rfl⟩ : ∃ n, fuel = n + 1 := ⟨fuel - 1, by omega⟩
    have hN : q.max_count = 2 ^ k := h.1
    have hnf : ¬ iq_full q := by
      unfold iq_full; rw [hN]; omega
    obtain ⟨ha, hwf, hfl, hrc, hdr⟩ := iq_post_accepted k hk q h hnf
    obtain ⟨q1, e1, hwf1, hfull1, hfl1, hrc1, hdr1⟩ :=
      ih (iq_post q).2 fuel hwf (by omega) (by omega)
    refine ⟨q1, ?_, hwf1, hfull1, hfl1, hrc1.trans hrc, by rw [hdr1, hdr]⟩
    rw [post_until_full, show iq_post q = (TxResult.Accepted, (iq_post q).2) from
      Prod.ext ha rfl]
    simp only [e1, Option.map_some']

/-- On a ring of capacity 2^17 no post is ever refused: posting until
`QueueFull` does not end, whatever the number of posts tried. -/
theorem post_until_full_capacity_2_17 (thr fuel : Nat) :
    post_until_full fuel (iq_init (2 ^ 17) thr) = none := by
  have key : ∀ (fuel n : Nat), post_until_full fuel
      ⟨n % 2 ^ 16, 0, 0, ⟨n % 2 ^ 64, 0, 0, 0, 0, 0, 0⟩, 2 ^ 17, 2 ^ 17 - 1, n % 2 ^ 32,
        u32 thr⟩ = none := by
    intro fuel
    induction fuel with
    | zero => intro n; rfl
    | succ fuel ih =>
      intro n
      have hnf : ¬ iq_full ⟨n % 2 ^ 16, 0, 0, ⟨n % 2 ^ 64, 0, 0, 0, 0, 0, 0⟩, 2 ^ 17,
          2 ^ 17 - 1, n % 2 ^ 32, u32 thr⟩ := by
        simp only [iq_full, in_flight, ring_dist, ring_dist_n]
        omega
      have hstep : iq_post ⟨n % 2 ^ 16, 0, 0, ⟨n % 2 ^ 64, 0, 0, 0, 0, 0, 0⟩, 2 ^ 17,
          2 ^ 17 - 1, n % 2 ^ 32, u32 thr⟩ =
          (TxResult.Accepted, ⟨(n + 1) % 2 ^ 16, 0, 0, ⟨(n + 1) % 2 ^ 64, 0, 0, 0, 0, 0, 0⟩,
            2 ^ 17, 2 ^ 17 - 1, (n + 1) % 2 ^ 32, u32 thr⟩) := by
        simp only [iq_post, if_neg hnf]
        simp only [Nat.and_pow_two_sub_one_eq_mod, u16, u32, u64, Prod.mk.injEq,
          octep_vf_iq.mk.injEq, octep_vf_iq_stats.mk.injEq, and_true, true_and]
        omega
      rw [post_until_full, hstep]
      simp only [ih (n + 1), Option.map_none']
  exact key fuel 0

/-- C11 as stated fails at both ends of the capacity range. A ring of capacity
1 is always `FULL`: the first post is refused, reclaiming then completes no
slot and reports no space, and no restart is counted. A ring of capacity 2^17
never returns `QueueFull`: 2^17 + 1 posts in a row are all accepted. -/
theorem backpressure_fails_capacity_1_and_2_17 :
    post_until_full 1 (iq_init (2 ^ 0) 1) = some (0, iq_capacity_one_refused) ∧
    in_flight iq_capacity_one_refused = 0 ∧
    (iq_reclaim iq_capacity_one_refused 1).1 = (0, false) ∧
    (iq_reclaim iq_capacity_one_refused 1).2.stats.restart_cnt =
      iq_capacity_one_refused.stats.restart_cnt ∧
    (iq_reclaim iq_capacity_one_refused 1).2.stats.restart_cnt ≠
      iq_capacity_one_refused.stats.restart_cnt + 1 ∧
    post_until_full (2 ^ 17 + 1) (iq_init (2 ^ 17) 1) = none :=
  ⟨by decide, by decide, by decide, by decide, by decide,
    post_until_full_capacity_2_17 1 (2 ^ 17 + 1)⟩

/-- C11 (amended): backpressure round trip. For every ring of capacity
N = 2^k with 2 <= N <= 65536 in any state reached from a fresh queue, posting
until transmit returns QueueFull accepts exactly the N - 1 - in_flight free
slots and then counts one dropped instruction; reclaiming done >= 1 slots
afterwards (all N - 1 outstanding slots when done >= N - 1) reports that many
completed slots and space available and counts exactly one restart; and then
exactly as many posts succeed as slots were reclaimed before QueueFull is
returned again, with no further restart. -/
theorem backpressure_round_trip (k thr : Nat) (ops : List IqOp) (fuel done : Nat)
    (hk1 : 1 ≤ k) (hk : k ≤ 16) (hfuel : 2 ^ k ≤ fuel) (hdone : 1 ≤ done) :
    ∃ q1 q3,
      post_until_full fuel (iq_run (iq_init (2 ^ k) thr) ops) =
        some (2 ^ k - 1 - in_flight (iq_run (iq_init (2 ^ k) thr) ops), q1) ∧
      q1.stats.instr_dropped =
        u64 ((iq_run (iq_init (2 ^ k) thr) ops).stats.instr_dropped + 1) ∧
      q1.stats.restart_cnt = (iq_run (iq_init (2 ^ k) thr) ops).stats.restart_cnt ∧
      in_flight q1 = 2 ^ k - 1 ∧
      (iq_reclaim q1 done).1 = (min done (2 ^ k - 1), true) ∧
      (iq_reclaim q1 done).2.stats.restart_cnt = u64 (q1.stats.restart_cnt + 1) ∧
      post_until_full fuel (iq_reclaim q1 done).2 = some (min done (2 ^ k - 1), q3) ∧
      q3.stats.restart_cnt = (iq_reclaim q1 done).2.stats.restart_cnt := by
  have h2k : 2 ≤ 2 ^ k := by
    have := Nat.pow_le_pow_right (show 0 < 2 by decide) hk1
    simpa using this
  have h0 := iq_run_wf k hk ops (iq_init (2 ^ k) thr) (iq_init_wf k thr hk)
  have hN0 : (iq_run (iq_init (2 ^ k) thr) ops).max_count = 2 ^ k := h0.1
  have hfl0 : in_flight (iq_run (iq_init (2 ^ k) thr) ops) ≤ 2 ^ k - 1 := by
    have := h0.2.2.2.2.2.2.2.2.2.1
    rwa [hN0] at this
  obtain ⟨q1, e1, hwf1, hfull1, hfl1, hrc1, hdr1⟩ :=
    post_until_full_spec k hk (2 ^ k - 1 - in_flight (iq_run (iq_init (2 ^ k) thr) ops))
      (iq_run (iq_init (2 ^ k) thr) ops) fuel h0 (by omega) (by omega)
  obtain ⟨r1, hwf2, hfl2, hsp, hrc2, -⟩ := iq_reclaim_spec k hk q1 done hwf1
  rw [hfl1] at r1 hfl2
  have hmin1 : 1 ≤ min done (2 ^ k - 1) := Nat.le_min.2 ⟨hdone, by omega⟩
  have hmin2 : min done (2 ^ k - 1) ≤ 2 ^ k - 1 := Nat.min_le_right _ _
  have hN2 : (iq_reclaim q1 done).2.max_count = 2 ^ k := hwf2.1
  have hnf2 : ¬ iq_full (iq_reclaim q1 done).2 := by
    unfold iq_full; rw [hN2, hfl2]; omega
  obtain ⟨q3, e3, -, -, -, hrc3, -⟩ :=
    post_until_full_spec k hk (min done (2 ^ k - 1)) (iq_reclaim q1 done).2 fuel hwf2
      (by rw [hfl2]; omega) (by omega)
  refine ⟨q1, q3, e1, hdr1, hrc1, hfl1, Prod.ext r1 (hsp.2 hnf2), ?_, e3, hrc3⟩
  rw [hrc2, if_pos ⟨hfull1, hnf2⟩]

/-- Witness for C11 (amended), Scenario A: on a fresh ring of capacity 8 seven
posts succeed and fill the ring, the eighth returns QueueFull with
instr_dropped = 1, and reclaiming 3 completed slots reports completed_count 3
and space available, counts one restart, and lets exactly 3 posts succeed. -/
theorem backpressure_round_trip_witness :
    (1 ≤ 3 ∧ 3 ≤ 16 ∧ 2 ^ 3 ≤ 8 ∧ 1 ≤ 3) ∧
    (∃ q1 q3,
      post_until_full 8 (iq_run (iq_init (2 ^ 3) 1) []) =
        some (2 ^ 3 - 1 - in_flight (iq_run (iq_init (2 ^ 3) 1) []), q1) ∧
      q1.stats.instr_dropped = u64 ((iq_run (iq_init (2 ^ 3) 1) []).stats.instr_dropped + 1) ∧
      q1.stats.restart_cnt = (iq_run (iq_init (2 ^ 3) 1) []).stats.restart_cnt ∧
      in_flight q1 = 2 ^ 3 - 1 ∧
      (iq_reclaim q1 3).1 = (min 3 (2 ^ 3 - 1), true) ∧
      (iq_reclaim q1 3).2.stats.restart_cnt = u64 (q1.stats.restart_cnt + 1) ∧
      post_until_full 8 (iq_reclaim q1 3).2 = some (min 3 (2 ^ 3 - 1), q3) ∧
      q3.stats.restart_cnt = (iq_reclaim q1 3).2.stats.restart_cnt) ∧
    (post_until_full 8 (iq_init 8 1)).map Prod.fst = some 7 ∧
    (iq_run (iq_init 8 1) (List.replicate 7 IqOp.post)).stats.instr_posted = 7 ∧
    iq_full (iq_run (iq_init 8 1) (List.replicate 7 IqOp.post)) ∧
    (iq_post (iq_run (iq_init 8 1) (List.replicate 7 IqOp.post))).1 = TxResult.QueueFull ∧
    (iq_post (iq_run (iq_init 8 1) (List.replicate 7 IqOp.post))).2.stats.instr_dropped = 1 ∧
    (iq_reclaim (iq_post (iq_run (iq_init 8 1) (List.replicate 7 IqOp.post))).2 3).1 =
      (3, true) :=
  ⟨by decide, backpressure_round_trip 3 1 [] 8 3 (by decide) (by decide) (by decide)
    (by decide), by decide, by decide, by decide, by decide, by decide, by decide⟩

end OctepVf
